import Mathlib

/-!
Verification of the RAID5 BUSE engine (`src/raid5.c`) against its
natural-language specification.

Shallow embedding conventions:
* A device block (`block_size` bytes) is a function `Nat → Nat` from byte
  index to byte value; only indices `j < block_size` are ever relevant, and
  all laws proved here hold pointwise at every index.
* Every `pread`/`pwrite` in the source is issued at `phys_offset = stripe *
  block_size` with length `block_size`, so each back-end device is modelled
  as a map from stripe number to block: `disks : Nat → Nat → Block`
  (slot index, then stripe number).
* `pread` never modifies a device; it is the primitive `preadB`, which
  returns the current block together with the (unchanged) state, and the
  I/O loops thread that state exactly as the C loops thread the file
  descriptors.
* Machine integers (`uint64_t` offsets, `int` indices) are modelled as
  `Nat`; none of the computations proved about here can overflow for any
  offset addressable through the BUSE layer.
* Fallible operations return `Except Err _`; the C functions return `0`
  for success and `-1` (after printing a diagnostic) for failure, and each
  distinct diagnostic site gets its own `Err` constructor.
-/

/-- A `block_size`-byte buffer, as a byte-indexed function. -/
def Block : Type := Nat → Nat

/-- Source `memset(buf, 0, block_size)`. -/
def zeroBlock : Block := fun _ => 0

/-- Byte-wise XOR of two blocks (`for j: a[j] ^= b[j]`). -/
def blockXor (a b : Block) : Block := fun j => a j ^^^ b j

theorem blockXor_apply (a b : Block) (j : Nat) :
    blockXor a b j = a j ^^^ b j := rfl

theorem zeroBlock_apply (j : Nat) : zeroBlock j = 0 := rfl

theorem blockXor_comm (a b : Block) : blockXor a b = blockXor b a := by
  funext j; exact Nat.xor_comm _ _

theorem blockXor_assoc (a b c : Block) :
    blockXor (blockXor a b) c = blockXor a (blockXor b c) := by
  funext j; exact Nat.xor_assoc _ _ _

theorem blockXor_self (a : Block) : blockXor a a = zeroBlock := by
  funext j; exact Nat.xor_self _

theorem blockXor_zero (a : Block) : blockXor a zeroBlock = a := by
  funext j; exact Nat.xor_zero _

theorem zero_blockXor (a : Block) : blockXor zeroBlock a = a := by
  funext j; exact Nat.zero_xor _

theorem blockXor_left_comm (a b c : Block) :
    blockXor a (blockXor b c) = blockXor b (blockXor a c) := by
  rw [← blockXor_assoc, blockXor_comm a b, blockXor_assoc]

theorem blockXor_cancel_left (a b : Block) :
    blockXor a (blockXor a b) = b := by
  rw [← blockXor_assoc, blockXor_self, zero_blockXor]

/-- Two byte values XOR to zero exactly when they are equal. -/
theorem xor_eq_zero_iff (x y : Nat) : x ^^^ y = 0 ↔ x = y := by
  constructor
  · intro h
    have h2 : x ^^^ (x ^^^ y) = x ^^^ 0 := by rw [h]
    rwa [← Nat.xor_assoc, Nat.xor_self, Nat.zero_xor, Nat.xor_zero, eq_comm] at h2
  · intro h; subst h; exact Nat.xor_self x

/-- XOR of `g 0, g 1, ..., g (n-1)` (the accumulation pattern of every
parity loop in the source). -/
def xorUpToM (g : Nat → Block) : Nat → Block
  | 0 => zeroBlock
  | n + 1 => blockXor (xorUpToM g n) (g n)

theorem xorUpToM_congr_lt {f g : Nat → Block} (n : Nat)
    (h : ∀ i, i < n → f i = g i) : xorUpToM f n = xorUpToM g n := by
  induction n with
  | zero => rfl
  | succ n ih =>
      simp only [xorUpToM]
      rw [ih (fun i hi => h i (Nat.lt_succ_of_lt hi)), h n (Nat.lt_succ_self n)]

theorem xorUpToM_zero_fun (n : Nat) : xorUpToM (fun _ => zeroBlock) n = zeroBlock := by
  induction n with
  | zero => rfl
  | succ n ih => simp only [xorUpToM]; rw [ih, blockXor_zero]

/-- Removing one index: the total XOR splits off any single term `g m`. -/
theorem xorUpToM_mask {g : Nat → Block} {m n : Nat} (hm : m < n) :
    xorUpToM g n
      = blockXor (xorUpToM (fun i => if i = m then zeroBlock else g i) n) (g m) := by
  induction n with
  | zero => exact absurd hm (Nat.not_lt_zero m)
  | succ n ih =>
      by_cases h : m = n
      · simp only [xorUpToM, h]
        have hcong : xorUpToM (fun i => if i = n then zeroBlock else g i) n
            = xorUpToM g n :=
          xorUpToM_congr_lt n (fun i hi => if_neg (Nat.ne_of_lt hi))
        simp only [if_true]
        rw [hcong, blockXor_zero]
      · have hlt : m < n := Nat.lt_of_le_of_ne (Nat.le_of_lt_succ hm) h
        have hne : n ≠ m := fun hnm => h hnm.symm
        simp only [xorUpToM, if_neg hne]
        rw [ih hlt, blockXor_assoc, blockXor_comm (g m) (g n), ← blockXor_assoc]

/-- XOR distributes over the indexed XOR. -/
theorem xorUpToM_add (f g : Nat → Block) (n : Nat) :
    xorUpToM (fun i => blockXor (f i) (g i)) n
      = blockXor (xorUpToM f n) (xorUpToM g n) := by
  induction n with
  | zero => simp [xorUpToM, blockXor_zero]
  | succ n ih =>
      simp only [xorUpToM]
      rw [ih]
      simp only [blockXor_assoc, blockXor_comm, blockXor_left_comm]

/-- The data-slot map of the source: `(d >= parity_disk) ? d + 1 : d`. -/
def dataSlotOf (parity d : Nat) : Nat := if parity ≤ d then d + 1 else d

theorem dataSlotOf_ne_parity (parity d : Nat) : dataSlotOf parity d ≠ parity := by
  unfold dataSlotOf; split <;> omega

theorem dataSlotOf_lt {parity d n : Nat} (hp : parity < n) (hd : d < n - 1) :
    dataSlotOf parity d < n := by
  unfold dataSlotOf; split <;> omega

theorem dataSlotOf_inj {parity d1 d2 : Nat}
    (h : dataSlotOf parity d1 = dataSlotOf parity d2) : d1 = d2 := by
  unfold dataSlotOf at h; split at h <;> split at h <;> omega

/-- Inverse of `dataSlotOf parity` on slots other than `parity`. -/
def invDataSlot (parity i : Nat) : Nat := if i < parity then i else i - 1

theorem dataSlotOf_invDataSlot {parity i : Nat} (hi : i ≠ parity) :
    dataSlotOf parity (invDataSlot parity i) = i := by
  unfold dataSlotOf invDataSlot; split <;> split <;> omega

theorem invDataSlot_dataSlotOf (parity d : Nat) :
    invDataSlot parity (dataSlotOf parity d) = d := by
  unfold dataSlotOf invDataSlot; split <;> split <;> omega

theorem invDataSlot_lt {parity i n : Nat} (hp : parity < n) (hi : i < n)
    (hne : i ≠ parity) : invDataSlot parity i < n - 1 := by
  unfold invDataSlot; split <;> omega

/-- Re-indexing along the data-slot map: XOR over the `n - 1` data slots of a
stripe equals the XOR over all `n` slots with the parity term split off. -/
theorem xorUpToM_reindex (f : Nat → Block) {p n : Nat} (hp : p < n) :
    xorUpToM (fun d => f (dataSlotOf p d)) (n - 1)
      = blockXor (xorUpToM f n) (f p) := by
  induction n with
  | zero => exact absurd hp (Nat.not_lt_zero p)
  | succ n ih =>
      by_cases h : p = n
      · rw [h]
        have h1 : ∀ d, d < n → dataSlotOf n d = d := by
          intro d hd; unfold dataSlotOf; rw [if_neg (by omega)]
        have h2 : xorUpToM (fun d => f (dataSlotOf n d)) n = xorUpToM f n :=
          xorUpToM_congr_lt n (fun i hi => by rw [h1 i hi])
        simp only [Nat.add_sub_cancel, xorUpToM]
        rw [h2, blockXor_assoc, blockXor_self, blockXor_zero]
      · have hpn : p < n := Nat.lt_of_le_of_ne (Nat.le_of_lt_succ hp) h
        have hn1 : 1 ≤ n := Nat.one_le_iff_ne_zero.mpr (by omega)
        have hstep : (n + 1) - 1 = (n - 1) + 1 := by omega
        rw [hstep]
        simp only [xorUpToM]
        have hds : dataSlotOf p (n - 1) = n := by
          unfold dataSlotOf; rw [if_pos (by omega)]; omega
        rw [hds, ih hpn, blockXor_assoc, blockXor_comm (f p) (f n), ← blockXor_assoc]

/-- Folding one masked index back in: `f p ⊕ XOR over i ∉ {p, d}` equals
`XOR over i ∉ {d}` (the shape of the degraded-read reconstruction). -/
theorem mask_two_combine (f : Nat → Block) {p d n : Nat} (hp : p < n)
    (hpd : p ≠ d) :
    blockXor (f p) (xorUpToM (fun i => if i = p ∨ i = d then zeroBlock else f i) n)
      = xorUpToM (fun i => if i = d then zeroBlock else f i) n := by
  have hmask :
      xorUpToM (fun i => if i = d then zeroBlock else f i) n
        = blockXor
            (xorUpToM (fun i => if i = p then zeroBlock
                                else if i = d then zeroBlock else f i) n)
            (if p = d then zeroBlock else f p) :=
    xorUpToM_mask (g := fun i => if i = d then zeroBlock else f i) hp
  have hfun : (fun i => if i = p then zeroBlock else if i = d then zeroBlock else f i)
      = (fun i => if i = p ∨ i = d then zeroBlock else f i) := by
    funext i
    by_cases h1 : i = p
    · simp [h1]
    · by_cases h2 : i = d <;> simp [h1, h2]
  rw [hmask, hfun, if_neg hpd, blockXor_comm]

/-- From parity consistency (total XOR zero), the XOR of all slots except `m`
reproduces slot `m`'s block, pointwise. -/
theorem mask_eq_of_xor_zero (f : Nat → Block) {m n : Nat} (hm : m < n)
    (hz : ∀ j, xorUpToM f n j = 0) :
    ∀ j, xorUpToM (fun i => if i = m then zeroBlock else f i) n j = f m j := by
  intro j
  have h := congrFun (xorUpToM_mask (g := f) hm) j
  rw [hz j] at h
  exact ((xor_eq_zero_iff _ _).mp h.symm)

/-- Global engine state of `raid5.c`: `num_devices`, the `dev_missing`
flags, and the contents of the back-end devices.  Device contents are
indexed by slot and by stripe number (every access in the source is the
full block at `phys_offset = stripe * block_size`). -/
structure RState where
  N : Nat
  missing : Nat → Bool
  disks : Nat → Nat → Block

/-- Error outcomes; the C code returns `-1` after printing a diagnostic,
one constructor per diagnostic site. -/
inductive Err where
  /-- In `xmp_read`: "data device %d and parity check device %d are missing". -/
  | readDoubleMissing : Err
  /-- In `xmp_read` / rebuild loops: a further needed device is missing. -/
  | peerMissing : Err
  /-- In the `xmp_write` full-stripe path: "parity device %d is missing". -/
  | fullStripeParityMissing : Err
  /-- In the `xmp_write` RMW path: "parity device %d is missing, write update fails". -/
  | rmwParityMissing : Err
deriving DecidableEq

/-- Source `pread(dev_fd[i], buf, block_size, stripe * block_size)`: returns the
block and leaves the state untouched. -/
def preadB (s : RState) (i st : Nat) : RState × Block := (s, s.disks i st)

/-- Source `pwrite(dev_fd[i], buf, block_size, stripe * block_size)`. -/
def pwriteB (s : RState) (i st : Nat) (b : Block) : RState :=
  { s with disks := fun i2 st2 => if i2 = i ∧ st2 = st then b else s.disks i2 st2 }

@[simp] theorem pwriteB_N (s : RState) (i st : Nat) (b : Block) :
    (pwriteB s i st b).N = s.N := rfl

@[simp] theorem pwriteB_missing (s : RState) (i st : Nat) (b : Block) :
    (pwriteB s i st b).missing = s.missing := rfl

theorem pwriteB_disks_same (s : RState) (i st : Nat) (b : Block) :
    (pwriteB s i st b).disks i st = b := by
  simp [pwriteB]

theorem pwriteB_disks_other (s : RState) (i st : Nat) (b : Block)
    {i2 st2 : Nat} (h : ¬(i2 = i ∧ st2 = st)) :
    (pwriteB s i st b).disks i2 st2 = s.disks i2 st2 := by
  simp only [pwriteB]
  rw [if_neg h]

/-- Flipping one slot's specifier to the literal `"MISSING"` before a restart. -/
def markMissing (s : RState) (m : Nat) : RState :=
  { s with missing := fun i => if i = m then true else s.missing i }

@[simp] theorem markMissing_N (s : RState) (m : Nat) : (markMissing s m).N = s.N := rfl

@[simp] theorem markMissing_disks (s : RState) (m : Nat) :
    (markMissing s m).disks = s.disks := rfl

/- Geometry (`raid5.c` lines 195-200, 294-299): for logical block
`L = offset / block_size`. -/

/-- Source `stripe = logical_block / (num_devices - 1)`. -/
def stripeOf (N L : Nat) : Nat := L / (N - 1)

/-- Source `pos = logical_block % (num_devices - 1)`. -/
def posOf (N L : Nat) : Nat := L % (N - 1)

/-- Source `parity_disk = stripe % num_devices`. -/
def parityOf (N L : Nat) : Nat := stripeOf N L % N

/-- Source `data_disk = (pos >= parity_disk) ? pos + 1 : pos`. -/
def dataOf (N L : Nat) : Nat := dataSlotOf (parityOf N L) (posOf N L)

/-- Source `phys_offset = stripe * block_size`. -/
def physOff (N B L : Nat) : Nat := stripeOf N L * B

/-- Byte-wise XOR over all `N` slots' blocks of one stripe. -/
def stripeXor (s : RState) (st : Nat) : Block :=
  xorUpToM (fun i => s.disks i st) s.N

/-- Parity consistency of a stripe: the XOR over all slots vanishes at
every byte position. -/
def parityConsistent (s : RState) (st : Nat) : Prop :=
  ∀ j, stripeXor s st j = 0

/-- The reconstruction loop of `xmp_read` (lines 217-232): XOR every slot
other than `parity_disk` and `data_disk` into the accumulator, failing at
the first further missing device. -/
def reconFold (s : RState) (parity dd st : Nat) (acc : Block) :
    List Nat → RState × Except Err Block
  | [] => (s, .ok acc)
  | i :: rest =>
      if i = parity ∨ i = dd then reconFold s parity dd st acc rest
      else if s.missing i = true then (s, .error .peerMissing)
      else
        let r := preadB s i st
        reconFold r.1 parity dd st (blockXor acc r.2) rest

/-- One iteration of the `xmp_read` loop (lines 195-234): read the block
of logical block `lb` directly, or reconstruct it from parity and peers. -/
def readOneBlockSt (s : RState) (lb : Nat) : RState × Except Err Block :=
  let st := stripeOf s.N lb
  let parity := parityOf s.N lb
  let dd := dataOf s.N lb
  if s.missing dd = false then
    let r := preadB s dd st
    (r.1, .ok r.2)
  else if s.missing parity = true then (s, .error .readDoubleMissing)
  else
    let r0 := preadB s parity st
    reconFold r0.1 parity dd st r0.2 (List.range s.N)

/-- Source `xmp_read` (lines 189-240) on a block-aligned request: logical block
`lb = offset / block_size`, `k = len / block_size` blocks. -/
def readBlocksSt (s : RState) (lb : Nat) : Nat → RState × Except Err (List Block)
  | 0 => (s, .ok [])
  | k + 1 =>
      let r := readOneBlockSt s lb
      match r.2 with
      | .error e => (r.1, .error e)
      | .ok b =>
          let rr := readBlocksSt r.1 (lb + 1) k
          (rr.1, rr.2.map (fun bs => b :: bs))

/-- The data-block loop of the full-stripe write path (lines 267-278):
write the `d`-th incoming block to data slot `dataSlotOf parity d`,
skipping missing slots. -/
def writeDataLoop (s : RState) (parity st : Nat) (data : Nat → Block) :
    List Nat → RState
  | [] => s
  | d :: rest =>
      let dd := dataSlotOf parity d
      let s1 := if s.missing dd = true then s else pwriteB s dd st (data d)
      writeDataLoop s1 parity st data rest

/-- Full-stripe write fast path of `xmp_write` (lines 260-291) for the
stripe `st`, with `data d` the `d`-th incoming block of the buffer. -/
def fullStripeWrite (s : RState) (st : Nat) (data : Nat → Block) :
    RState × Except Err Unit :=
  let parity := st % s.N
  let s1 := writeDataLoop s parity st data (List.range (s.N - 1))
  let pblock := xorUpToM data (s.N - 1)
  if s1.missing parity = true then (s1, .error .fullStripeParityMissing)
  else (pwriteB s1 parity st pblock, .ok ())

/-- Read-modify-write slow path of `xmp_write` (lines 294-345) for one
logical block `lb` with incoming block `nd`. -/
def rmwWrite (s : RState) (lb : Nat) (nd : Block) : RState × Except Err Unit :=
  let st := stripeOf s.N lb
  let parity := parityOf s.N lb
  let dd := dataOf s.N lb
  let oldParity := if s.missing parity = true then zeroBlock else s.disks parity st
  let oldData := if s.missing dd = true then zeroBlock else s.disks dd st
  let newParity := blockXor (blockXor oldParity oldData) nd
  let s1 := if s.missing dd = true then s else pwriteB s dd st nd
  if s1.missing parity = true then (s1, .error .rmwParityMissing)
  else (pwriteB s1 parity st newParity, .ok ())

/-- Source `xmp_write` (lines 256-348) on a block-aligned request: starting
logical block `lb = offset / block_size`, `k = len / block_size` blocks,
`data d` the `d`-th incoming block.  The branch condition is the source's
`offset % ((num_devices-1)*block_size) == 0 && len >= (num_devices-1)*block_size`,
expressed at block granularity (`main` guarantees `num_devices ≥ 3`, so
the `2 ≤ s.N` conjunct is always true in any reachable state). -/
def writeBlocksSt (s : RState) (lb k : Nat) (data : Nat → Block) :
    RState × Except Err Unit :=
  if hk : k = 0 then (s, .ok ())
  else if hc : 2 ≤ s.N ∧ lb % (s.N - 1) = 0 ∧ s.N - 1 ≤ k then
    let r := fullStripeWrite s (stripeOf s.N lb) data
    match r.2 with
    | .error e => (r.1, .error e)
    | .ok _ =>
        writeBlocksSt r.1 (lb + (s.N - 1)) (k - (s.N - 1))
          (fun d => data (d + (s.N - 1)))
  else
    let r := rmwWrite s lb (data 0)
    match r.2 with
    | .error e => (r.1, .error e)
    | .ok _ => writeBlocksSt r.1 (lb + 1) (k - 1) (fun d => data (d + 1))
termination_by k
decreasing_by
  · omega
  · omega

/-- One stripe of `do_raid5_rebuild` (lines 109-173).  In the `t = p`
branch the loop skips only `parity_disk` (which equals `rebuild_dev`); in
the other branch it skips both, and a missing parity device contributes an
all-zero accumulator instead of failing. -/
def rebuildOneStripe (s : RState) (t st : Nat) : RState × Except Err Unit :=
  let p := st % s.N
  let acc0 := if t = p then zeroBlock
              else if s.missing p = true then zeroBlock else (preadB s p st).2
  match reconFold s p t st acc0 (List.range s.N) with
  | (s1, .error e) => (s1, .error e)
  | (s1, .ok acc) => (pwriteB s1 t st acc, .ok ())

/-- The stripe loop of `do_raid5_rebuild` (line 109). -/
def rebuildStripes (s : RState) (t : Nat) : List Nat → RState × Except Err Unit
  | [] => (s, .ok ())
  | st :: rest =>
      match rebuildOneStripe s t st with
      | (s1, .error e) => (s1, .error e)
      | (s1, .ok _) => rebuildStripes s1 t rest

/-- Source `do_raid5_rebuild` (lines 102-177): `numStripes = raid_device_size /
((num_devices - 1) * block_size)`, stripes scanned in order. -/
def doRebuild (s : RState) (t numStripes : Nat) : RState × Except Err Unit :=
  rebuildStripes s t (List.range numStripes)

/- Startup model (`parse_opt` line 64 and `main` lines 368-427). -/

/-- Source `strtoul(arg, NULL, 10)` on the `BLOCKSIZE` token: the value of the
longest leading run of decimal digits, and `0` when there is none (libc
`strtoul` performs no error signalling here; the source never checks). -/
def strtoul10 (a : String) : Nat :=
  (a.toList.takeWhile Char.isDigit).foldl (fun acc c => acc * 10 + (c.toNat - 48)) 0

/-- A device argument: the literal `"MISSING"`, or a path (optionally
`+`-prefixed) whose opened file has the given size in bytes. -/
inductive DevSpec where
  | missingDev : DevSpec
  | presentDev (plus : Bool) (size : Nat) : DevSpec

/-- Startup failures.  `sigfpeDivByZero` models the C program evaluating
`size / block_size` (line 403) with `block_size == 0`: integer division by
zero, which traps (SIGFPE) instead of reaching any later check. -/
inductive StartErr where
  | tooFewDevices : StartErr
  | multiplePlus : StartErr
  | sigfpeDivByZero : StartErr
  | noAvailableDevices : StartErr
deriving DecidableEq

/-- Startup configuration established by `main` before serving. -/
structure MainConfig where
  N : Nat
  B : Nat
  minBlocks : Nat
  raidSize : Nat
  rebuildDev : Option Nat
deriving DecidableEq

/-- The per-device startup loop of `main` (lines 380-408): rebuild-target
bookkeeping, then `blocks = size / block_size` and the running minimum. -/
def scanDevs (B : Nat) :
    List DevSpec → Nat → Option Nat → Nat → Except StartErr (Option Nat × Nat)
  | [], _, rb, mb => .ok (rb, mb)
  | .missingDev :: rest, i, rb, mb => scanDevs B rest (i + 1) rb mb
  | .presentDev plus size :: rest, i, rb, mb =>
      if plus ∧ rb.isSome then .error .multiplePlus
      else
        let rb2 := if plus then some i else rb
        if B = 0 then .error .sigfpeDivByZero
        else
          let blocks := size / B
          let mb2 := if mb = 0 ∨ blocks < mb then blocks else mb
          scanDevs B rest (i + 1) rb2 mb2

/-- Source `main` up to the point where the rebuild (if any) would start and the
BUSE loop would be entered (lines 368-416). -/
def mainStartup (bsArg : String) (devs : List DevSpec) :
    Except StartErr MainConfig :=
  let B := strtoul10 bsArg
  if devs.length < 3 then .error .tooFewDevices
  else
    match scanDevs B devs 0 none 0 with
    | .error e => .error e
    | .ok (rb, mb) =>
        if mb = 0 then .error .noAvailableDevices
        else
          .ok { N := devs.length, B := B, minBlocks := mb,
                raidSize := (devs.length - 1) * mb * B, rebuildDev := rb }

/-- Per-block output of a degraded read, as the specification words it
(claim C3): a block whose data slot is present is read from that slot; a
block whose data slot is the missing slot `m` is the byte-wise XOR of the
stripe's parity block and the other `N - 2` data blocks. -/
def readBlockSpecC3 (s : RState) (m lb : Nat) : Block :=
  let st := stripeOf s.N lb
  let parity := parityOf s.N lb
  let dd := dataOf s.N lb
  if dd ≠ m then s.disks dd st
  else
    blockXor (s.disks parity st)
      (xorUpToM (fun i => if i = parity ∨ i = dd then zeroBlock else s.disks i st) s.N)

/- Read-path lemmas. -/

theorem reconFold_fst (parity dd st : Nat) :
    ∀ (l : List Nat) (s : RState) (acc : Block),
      (reconFold s parity dd st acc l).1 = s := by
  intro l
  induction l with
  | nil => intro s acc; rfl
  | cons i rest ih =>
      intro s acc
      simp only [reconFold]
      by_cases h1 : i = parity ∨ i = dd
      · rw [if_pos h1]; exact ih s acc
      · rw [if_neg h1]
        by_cases h2 : s.missing i = true
        · rw [if_pos h2]
        · rw [if_neg h2]; exact ih s _

theorem reconFold_ok (parity dd st : Nat) :
    ∀ (l : List Nat) (s : RState) (acc : Block),
      (∀ i ∈ l, i ≠ parity → i ≠ dd → s.missing i = false) →
      reconFold s parity dd st acc l
        = (s, .ok (l.foldl
            (fun a i => if i = parity ∨ i = dd then a
                        else blockXor a (s.disks i st)) acc)) := by
  intro l
  induction l with
  | nil => intro s acc _; rfl
  | cons i rest ih =>
      intro s acc h
      simp only [reconFold, List.foldl_cons]
      by_cases h1 : i = parity ∨ i = dd
      · rw [if_pos h1, if_pos h1]
        exact ih s acc (fun i2 hi2 => h i2 (List.mem_cons_of_mem i hi2))
      · have hmiss : s.missing i = false := by
          rcases not_or.mp h1 with ⟨hp, hd⟩
          exact h i (List.mem_cons_self i rest) hp hd
        rw [if_neg h1, if_neg (by simp [hmiss]), if_neg h1]
        exact ih s _ (fun i2 hi2 => h i2 (List.mem_cons_of_mem i hi2))

theorem reconFold_err (parity dd st : Nat) :
    ∀ (l : List Nat) (s : RState) (acc : Block),
      (∃ i ∈ l, ¬(i = parity ∨ i = dd) ∧ s.missing i = true) →
      (reconFold s parity dd st acc l).2 = .error .peerMissing := by
  intro l
  induction l with
  | nil => intro s acc h; simp at h
  | cons i rest ih =>
      intro s acc h
      simp only [reconFold]
      by_cases h1 : i = parity ∨ i = dd
      · rw [if_pos h1]
        apply ih s acc
        rcases h with ⟨i2, hmem, hskip, hmiss⟩
        rcases List.mem_cons.mp hmem with rfl | hmem2
        · exact absurd h1 hskip
        · exact ⟨i2, hmem2, hskip, hmiss⟩
      · rw [if_neg h1]
        by_cases h2 : s.missing i = true
        · rw [if_pos h2]
        · rw [if_neg h2]
          apply ih s _
          rcases h with ⟨i2, hmem, hskip, hmiss⟩
          rcases List.mem_cons.mp hmem with rfl | hmem2
          · exact absurd hmiss h2
          · exact ⟨i2, hmem2, hskip, hmiss⟩

/-- The skip-two fold over `0..n-1` is the masked indexed XOR. -/
theorem foldl_skipXor_range (g : Nat → Block) (parity dd : Nat) :
    ∀ (n : Nat) (acc : Block),
      (List.range n).foldl
          (fun a i => if i = parity ∨ i = dd then a else blockXor a (g i)) acc
        = blockXor acc
            (xorUpToM (fun i => if i = parity ∨ i = dd then zeroBlock else g i) n) := by
  intro n
  induction n with
  | zero => intro acc; simp [xorUpToM, blockXor_zero]
  | succ n ih =>
      intro acc
      rw [List.range_succ, List.foldl_append, ih acc]
      simp only [List.foldl_cons, List.foldl_nil, xorUpToM]
      by_cases h1 : n = parity ∨ n = dd
      · rw [if_pos h1, if_pos h1, blockXor_zero]
      · rw [if_neg h1, if_neg h1, blockXor_assoc]

theorem readOneBlockSt_fst (s : RState) (lb : Nat) :
    (readOneBlockSt s lb).1 = s := by
  simp only [readOneBlockSt, preadB]
  by_cases h1 : s.missing (dataOf s.N lb) = false
  · rw [if_pos h1]
  · rw [if_neg h1]
    by_cases h2 : s.missing (parityOf s.N lb) = true
    · rw [if_pos h2]
    · rw [if_neg h2]
      exact reconFold_fst _ _ _ _ s _

/-- Non-degraded block read: the data slot is present and is read directly. -/
theorem readOneBlockSt_present (s : RState) (lb : Nat)
    (h : s.missing (dataOf s.N lb) = false) :
    readOneBlockSt s lb
      = (s, .ok (s.disks (dataOf s.N lb) (stripeOf s.N lb))) := by
  simp only [readOneBlockSt, preadB]
  rw [if_pos h]

/-- Degraded block read, all peers present: parity block XOR the other
data blocks. -/
theorem readOneBlockSt_degraded (s : RState) (lb : Nat)
    (hdd : s.missing (dataOf s.N lb) = true)
    (hpar : s.missing (parityOf s.N lb) = false)
    (hothers : ∀ i, i < s.N → i ≠ parityOf s.N lb → i ≠ dataOf s.N lb →
      s.missing i = false) :
    readOneBlockSt s lb
      = (s, .ok (blockXor (s.disks (parityOf s.N lb) (stripeOf s.N lb))
          (xorUpToM
            (fun i => if i = parityOf s.N lb ∨ i = dataOf s.N lb then zeroBlock
                      else s.disks i (stripeOf s.N lb)) s.N))) := by
  simp only [readOneBlockSt, preadB]
  rw [if_neg (by simp [hdd]), if_neg (by simp [hpar])]
  rw [reconFold_ok _ _ _ _ s _
    (fun i hi => hothers i (List.mem_range.mp hi))]
  rw [foldl_skipXor_range]

/-- Degraded block read whose parity slot is also missing: error. -/
theorem readOneBlockSt_err_parity (s : RState) (lb : Nat)
    (hdd : s.missing (dataOf s.N lb) = true)
    (hpar : s.missing (parityOf s.N lb) = true) :
    readOneBlockSt s lb = (s, .error .readDoubleMissing) := by
  simp only [readOneBlockSt, preadB]
  rw [if_neg (by simp [hdd]), if_pos hpar]

/-- Degraded block read with a further missing peer: error. -/
theorem readOneBlockSt_err_peer (s : RState) (lb : Nat)
    (hdd : s.missing (dataOf s.N lb) = true)
    (hi : ∃ i, i < s.N ∧ i ≠ parityOf s.N lb ∧ i ≠ dataOf s.N lb ∧
      s.missing i = true) :
    ∃ e, (readOneBlockSt s lb).2 = .error e := by
  simp only [readOneBlockSt, preadB]
  rw [if_neg (by simp [hdd])]
  by_cases hpar : s.missing (parityOf s.N lb) = true
  · rw [if_pos hpar]; exact ⟨.readDoubleMissing, rfl⟩
  · rw [if_neg hpar]
    refine ⟨.peerMissing, ?_⟩
    apply reconFold_err
    rcases hi with ⟨i, hlt, hp, hd, hm⟩
    exact ⟨i, List.mem_range.mpr hlt, by simp [hp, hd], hm⟩

theorem readBlocksSt_fst (k : Nat) :
    ∀ (s : RState) (lb : Nat), (readBlocksSt s lb k).1 = s := by
  induction k with
  | zero => intro s lb; rfl
  | succ k ih =>
      intro s lb
      simp only [readBlocksSt]
      rcases hr : (readOneBlockSt s lb).2 with e | b
      · exact readOneBlockSt_fst s lb
      · exact (ih _ (lb + 1)).trans (readOneBlockSt_fst s lb)

/-- When every requested block reads back the value `v`, the whole request
succeeds and returns the list of those values in order. -/
theorem readBlocksSt_mapOk (v : Nat → Block) (k : Nat) :
    ∀ (s : RState) (lb : Nat),
      (∀ j, j < k → readOneBlockSt s (lb + j) = (s, .ok (v (lb + j)))) →
      readBlocksSt s lb k = (s, .ok ((List.range k).map (fun j => v (lb + j)))) := by
  induction k with
  | zero => intro s lb _; rfl
  | succ k ih =>
      intro s lb h
      have h0 := h 0 (Nat.succ_pos k)
      rw [Nat.add_zero] at h0
      simp only [readBlocksSt, h0]
      have hrest : readBlocksSt s (lb + 1) k
          = (s, .ok ((List.range k).map (fun j => v (lb + 1 + j)))) := by
        apply ih
        intro j hj
        have := h (j + 1) (Nat.succ_lt_succ hj)
        rwa [show lb + (j + 1) = lb + 1 + j by omega] at this
      rw [hrest]
      have hfun : ((fun j => v (lb + j)) ∘ Nat.succ) = (fun j => v (lb + 1 + j)) := by
        funext j
        show v (lb + (j + 1)) = v (lb + 1 + j)
        rw [show lb + (j + 1) = lb + 1 + j by omega]
      rw [List.range_succ_eq_map, List.map_cons, List.map_map, hfun]
      simp [Except.map]

/-- If some requested block fails, the whole request fails. -/
theorem readBlocksSt_err (k : Nat) :
    ∀ (s : RState) (lb : Nat),
      (∃ j, j < k ∧ ∃ e, (readOneBlockSt s (lb + j)).2 = .error e) →
      ∃ e, (readBlocksSt s lb k).2 = .error e := by
  induction k with
  | zero => intro s lb h; rcases h with ⟨j, hj, _⟩; omega
  | succ k ih =>
      intro s lb h
      simp only [readBlocksSt]
      rcases hr : (readOneBlockSt s lb).2 with e | b
      · exact ⟨e, rfl⟩
      · rcases h with ⟨j, hj, e, he⟩
        match j with
        | 0 =>
            rw [Nat.add_zero, hr] at he
            exact absurd he (by simp)
        | j + 1 =>
            have hw : ∃ e2, (readBlocksSt s (lb + 1) k).2 = .error e2 := by
              apply ih
              exact ⟨j, by omega, e, by rwa [show lb + 1 + j = lb + (j + 1) by omega]⟩
            rcases hw with ⟨e2, he2⟩
            refine ⟨e2, ?_⟩
            show (Except.map (fun bs => b :: bs)
              (readBlocksSt (readOneBlockSt s lb).1 (lb + 1) k).2) = Except.error e2
            rw [readOneBlockSt_fst s lb, he2]
            rfl

/- Write-path lemmas. -/

theorem writeDataLoop_N (parity st : Nat) (data : Nat → Block) :
    ∀ (l : List Nat) (s : RState), (writeDataLoop s parity st data l).N = s.N := by
  intro l
  induction l with
  | nil => intro s; rfl
  | cons d rest ih =>
      intro s
      simp only [writeDataLoop]
      rw [ih]
      by_cases h : s.missing (dataSlotOf parity d) = true
      · rw [if_pos h]
      · rw [if_neg h, pwriteB_N]

theorem writeDataLoop_missing (parity st : Nat) (data : Nat → Block) :
    ∀ (l : List Nat) (s : RState),
      (writeDataLoop s parity st data l).missing = s.missing := by
  intro l
  induction l with
  | nil => intro s; rfl
  | cons d rest ih =>
      intro s
      simp only [writeDataLoop]
      rw [ih]
      by_cases h : s.missing (dataSlotOf parity d) = true
      · rw [if_pos h]
      · rw [if_neg h, pwriteB_missing]

theorem writeDataLoop_disks_other (parity st : Nat) (data : Nat → Block)
    {i st2 : Nat} :
    ∀ (l : List Nat) (s : RState),
      (∀ d ∈ l, ¬(i = dataSlotOf parity d ∧ st2 = st)) →
      (writeDataLoop s parity st data l).disks i st2 = s.disks i st2 := by
  intro l
  induction l with
  | nil => intro s _; rfl
  | cons d rest ih =>
      intro s h
      simp only [writeDataLoop]
      rw [ih _ (fun d2 hd2 => h d2 (List.mem_cons_of_mem d hd2))]
      by_cases hm : s.missing (dataSlotOf parity d) = true
      · rw [if_pos hm]
      · rw [if_neg hm]
        exact pwriteB_disks_other s _ st _ (h d (List.mem_cons_self d rest))

theorem writeDataLoop_disks_hit (parity st : Nat) (data : Nat → Block)
    {d0 : Nat} :
    ∀ (l : List Nat) (s : RState), l.Nodup → d0 ∈ l →
      (writeDataLoop s parity st data l).disks (dataSlotOf parity d0) st
        = if s.missing (dataSlotOf parity d0) = true
          then s.disks (dataSlotOf parity d0) st else data d0 := by
  intro l
  induction l with
  | nil => intro s _ h0; simp at h0
  | cons d rest ih =>
      intro s hnd h0
      have hnd2 := List.nodup_cons.mp hnd
      simp only [writeDataLoop]
      by_cases hd : d = d0
      · subst hd
        have hother : ∀ d2 ∈ rest, ¬(dataSlotOf parity d = dataSlotOf parity d2 ∧ st = st) := by
          intro d2 hd2 hcon
          exact absurd (dataSlotOf_inj hcon.1 ▸ hd2) hnd2.1
        rw [writeDataLoop_disks_other parity st data rest _ hother]
        by_cases hm : s.missing (dataSlotOf parity d) = true
        · rw [if_pos hm, if_pos hm]
        · rw [if_neg hm, if_neg hm, pwriteB_disks_same]
      · have h0r : d0 ∈ rest := by
          rcases List.mem_cons.mp h0 with h | h
          · exact absurd h.symm hd
          · exact h
        set s1 := if s.missing (dataSlotOf parity d) = true then s
          else pwriteB s (dataSlotOf parity d) st (data d) with hs1
        have hmiss1 : s1.missing = s.missing := by
          rw [hs1]
          by_cases hm : s.missing (dataSlotOf parity d) = true
          · rw [if_pos hm]
          · rw [if_neg hm, pwriteB_missing]
        have hdisks1 : s1.disks (dataSlotOf parity d0) st
            = s.disks (dataSlotOf parity d0) st := by
          rw [hs1]
          by_cases hm : s.missing (dataSlotOf parity d) = true
          · rw [if_pos hm]
          · rw [if_neg hm]
            apply pwriteB_disks_other
            intro hcon
            exact hd (dataSlotOf_inj hcon.1).symm
        rw [ih s1 hnd2.2 h0r, hmiss1, hdisks1]

/-- With the parity slot present the full-stripe path succeeds, writing the
data blocks and then the XOR parity block. -/
theorem fullStripeWrite_ok (s : RState) (st : Nat) (data : Nat → Block)
    (hpar : s.missing (st % s.N) = false) :
    fullStripeWrite s st data
      = (pwriteB (writeDataLoop s (st % s.N) st data (List.range (s.N - 1)))
          (st % s.N) st (xorUpToM data (s.N - 1)), .ok ()) := by
  simp only [fullStripeWrite]
  rw [writeDataLoop_missing, if_neg (by simp [hpar])]

/-- With the parity slot missing the full-stripe path fails (after having
written the present data slots). -/
theorem fullStripeWrite_err (s : RState) (st : Nat) (data : Nat → Block)
    (hpar : s.missing (st % s.N) = true) :
    fullStripeWrite s st data
      = (writeDataLoop s (st % s.N) st data (List.range (s.N - 1)),
         .error .fullStripeParityMissing) := by
  simp only [fullStripeWrite]
  rw [writeDataLoop_missing, if_pos hpar]

theorem fullStripeWrite_fst_N (s : RState) (st : Nat) (data : Nat → Block) :
    (fullStripeWrite s st data).1.N = s.N := by
  simp only [fullStripeWrite]
  by_cases h : (writeDataLoop s (st % s.N) st data (List.range (s.N - 1))).missing
      (st % s.N) = true
  · rw [if_pos h, writeDataLoop_N]
  · rw [if_neg h, pwriteB_N, writeDataLoop_N]

theorem fullStripeWrite_fst_missing (s : RState) (st : Nat) (data : Nat → Block) :
    (fullStripeWrite s st data).1.missing = s.missing := by
  simp only [fullStripeWrite]
  by_cases h : (writeDataLoop s (st % s.N) st data (List.range (s.N - 1))).missing
      (st % s.N) = true
  · rw [if_pos h, writeDataLoop_missing]
  · rw [if_neg h, pwriteB_missing, writeDataLoop_missing]

/-- Success state of a full-stripe write: the parity slot holds the XOR of
the incoming data blocks. -/
theorem fullStripeWrite_disks_parity (s : RState) (st : Nat) (data : Nat → Block)
    (hpar : s.missing (st % s.N) = false) :
    (fullStripeWrite s st data).1.disks (st % s.N) st
      = xorUpToM data (s.N - 1) := by
  rw [fullStripeWrite_ok s st data hpar, pwriteB_disks_same]

/-- Success state of a full-stripe write: present data slot `dataSlotOf p d`
holds incoming block `d`; a missing data slot keeps its old content. -/
theorem fullStripeWrite_disks_data (s : RState) (st : Nat) (data : Nat → Block)
    (hpar : s.missing (st % s.N) = false) {d : Nat} (hd : d < s.N - 1) :
    (fullStripeWrite s st data).1.disks (dataSlotOf (st % s.N) d) st
      = if s.missing (dataSlotOf (st % s.N) d) = true
        then s.disks (dataSlotOf (st % s.N) d) st else data d := by
  rw [fullStripeWrite_ok s st data hpar]
  rw [pwriteB_disks_other _ _ _ _
    (by intro hcon; exact dataSlotOf_ne_parity (st % s.N) d hcon.1)]
  exact writeDataLoop_disks_hit _ _ _ _ _ (List.nodup_range _) (List.mem_range.mpr hd)

/-- A full-stripe write touches only its own stripe. -/
theorem fullStripeWrite_disks_otherStripe (s : RState) (st : Nat)
    (data : Nat → Block) {i st2 : Nat} (hst : st2 ≠ st) :
    (fullStripeWrite s st data).1.disks i st2 = s.disks i st2 := by
  simp only [fullStripeWrite]
  by_cases h : (writeDataLoop s (st % s.N) st data (List.range (s.N - 1))).missing
      (st % s.N) = true
  · rw [if_pos h]
    exact writeDataLoop_disks_other _ _ _ _ _ (fun d _ hcon => hst hcon.2)
  · rw [if_neg h]
    rw [pwriteB_disks_other _ _ _ _ (fun hcon => hst hcon.2)]
    exact writeDataLoop_disks_other _ _ _ _ _ (fun d _ hcon => hst hcon.2)

/-- After a full-stripe write with every slot present, the written stripe is
parity-consistent (the XOR over all slots vanishes), unconditionally. -/
theorem fullStripeWrite_consistent (s : RState) (st : Nat) (data : Nat → Block)
    (hN : 0 < s.N) (hall : ∀ i, i < s.N → s.missing i = false) :
    ∀ j, stripeXor (fullStripeWrite s st data).1 st j = 0 := by
  have hp : st % s.N < s.N := Nat.mod_lt st hN
  have hpar : s.missing (st % s.N) = false := hall _ hp
  set p := st % s.N with hpdef
  set S2 := (fullStripeWrite s st data).1 with hS2
  have hSN : S2.N = s.N := fullStripeWrite_fst_N s st data
  have hF : ∀ i, i < s.N → S2.disks i st
      = (fun i => if i = p then xorUpToM data (s.N - 1)
                  else data (invDataSlot p i)) i := by
    intro i hi
    by_cases hip : i = p
    · subst hip
      simp only [if_pos rfl]
      exact fullStripeWrite_disks_parity s st data hpar
    · simp only [if_neg hip]
      have hinv : invDataSlot p i < s.N - 1 := invDataSlot_lt hp hi hip
      have := fullStripeWrite_disks_data s st data hpar hinv
      rw [dataSlotOf_invDataSlot hip] at this
      rw [this, if_neg (by simp [hall i hi])]
  have hXor : stripeXor S2 st
      = xorUpToM (fun i => if i = p then xorUpToM data (s.N - 1)
                           else data (invDataSlot p i)) s.N := by
    unfold stripeXor
    rw [hSN]
    exact xorUpToM_congr_lt s.N hF
  set F := fun i => if i = p then xorUpToM data (s.N - 1)
                    else data (invDataSlot p i) with hFdef
  have hmaskF : xorUpToM (fun i => if i = p then zeroBlock else F i) s.N
      = xorUpToM data (s.N - 1) := by
    have hre := xorUpToM_reindex (fun i => if i = p then zeroBlock else F i) hp
    have hcong : (fun d => (fun i => if i = p then zeroBlock else F i)
        (dataSlotOf p d)) = data := by
      funext d
      show (if dataSlotOf p d = p then zeroBlock else F (dataSlotOf p d)) = data d
      rw [if_neg (dataSlotOf_ne_parity p d)]
      show (if dataSlotOf p d = p then xorUpToM data (s.N - 1)
            else data (invDataSlot p (dataSlotOf p d))) = data d
      rw [if_neg (dataSlotOf_ne_parity p d), invDataSlot_dataSlotOf]
    have hGp : (fun i => if i = p then zeroBlock else F i) p = zeroBlock := by
      show (if p = p then zeroBlock else F p) = zeroBlock
      rw [if_pos rfl]
    rw [hcong, hGp, blockXor_zero] at hre
    exact hre.symm
  have hsplit := xorUpToM_mask (g := F) hp
  rw [hXor]
  intro j
  rw [hsplit, hmaskF]
  have hFp : F p = xorUpToM data (s.N - 1) := if_pos rfl
  rw [hFp, blockXor_self]
  rfl

theorem blockXor_cancel_right (a b : Block) : blockXor (blockXor a b) b = a := by
  rw [blockXor_assoc, blockXor_self, blockXor_zero]

theorem pwriteB_disks_fun (s : RState) (i st : Nat) (b : Block) :
    (fun i2 => (pwriteB s i st b).disks i2 st)
      = (fun i2 => if i2 = i then b else s.disks i2 st) := by
  funext i2
  show (if i2 = i ∧ st = st then b else s.disks i2 st) = _
  by_cases h : i2 = i
  · rw [if_pos ⟨h, rfl⟩, if_pos h]
  · rw [if_neg (fun hc => h hc.1), if_neg h]

/-- Writing one slot of a stripe changes the stripe XOR by
`old block ⊕ new block`. -/
theorem stripeXor_pwriteB (s : RState) {i : Nat} (st : Nat) (b : Block)
    (hi : i < s.N) :
    stripeXor (pwriteB s i st b) st
      = blockXor (stripeXor s st) (blockXor (s.disks i st) b) := by
  unfold stripeXor
  rw [pwriteB_N, pwriteB_disks_fun]
  have h1 := xorUpToM_mask
    (g := fun i2 => if i2 = i then b else s.disks i2 st) (m := i) (n := s.N) hi
  have h2 := xorUpToM_mask (g := fun i2 => s.disks i2 st) (m := i) (n := s.N) hi
  have hcong : (fun i2 => if i2 = i then zeroBlock
      else if i2 = i then b else s.disks i2 st)
      = (fun i2 => if i2 = i then zeroBlock else s.disks i2 st) := by
    funext i2
    by_cases h : i2 = i
    · rw [if_pos h, if_pos h]
    · rw [if_neg h, if_neg h, if_neg h]
  rw [hcong] at h1
  have h3 : xorUpToM (fun i2 => if i2 = i then zeroBlock else s.disks i2 st) s.N
      = blockXor (xorUpToM (fun i2 => s.disks i2 st) s.N) (s.disks i st) := by
    rw [h2, blockXor_cancel_right]
  rw [h1, h3]
  have hb : (if i = i then b else s.disks i st) = b := if_pos rfl
  simp only [hb, if_true, blockXor_assoc]

/-- Writing one slot of a stripe leaves every other stripe's XOR unchanged. -/
theorem stripeXor_pwriteB_other (s : RState) (i st : Nat) (b : Block)
    {st2 : Nat} (hst : st2 ≠ st) :
    stripeXor (pwriteB s i st b) st2 = stripeXor s st2 := by
  unfold stripeXor
  rw [pwriteB_N]
  exact xorUpToM_congr_lt s.N
    (fun i2 _ => pwriteB_disks_other s i st b (fun hc => hst hc.2))

/-- RMW write with both the data and the parity slot present: write the new
data block, then the new parity `old_parity ⊕ old_data ⊕ new_data`. -/
theorem rmwWrite_ok (s : RState) (lb : Nat) (nd : Block)
    (hdd : s.missing (dataOf s.N lb) = false)
    (hpar : s.missing (parityOf s.N lb) = false) :
    rmwWrite s lb nd
      = (pwriteB (pwriteB s (dataOf s.N lb) (stripeOf s.N lb) nd)
          (parityOf s.N lb) (stripeOf s.N lb)
          (blockXor (blockXor (s.disks (parityOf s.N lb) (stripeOf s.N lb))
            (s.disks (dataOf s.N lb) (stripeOf s.N lb))) nd), .ok ()) := by
  simp only [rmwWrite, hdd, hpar, pwriteB_missing, Bool.false_eq_true, if_false]

theorem rmwWrite_fst_N (s : RState) (lb : Nat) (nd : Block) :
    (rmwWrite s lb nd).1.N = s.N := by
  simp only [rmwWrite]
  split <;> split <;> simp

theorem rmwWrite_fst_missing (s : RState) (lb : Nat) (nd : Block) :
    (rmwWrite s lb nd).1.missing = s.missing := by
  simp only [rmwWrite]
  split <;> split <;> simp

theorem parityOf_lt {N : Nat} (L : Nat) (hN : 0 < N) : parityOf N L < N :=
  Nat.mod_lt _ hN

theorem posOf_lt {N : Nat} (L : Nat) (hN : 2 ≤ N) : posOf N L < N - 1 :=
  Nat.mod_lt _ (by omega)

theorem dataOf_lt {N : Nat} (L : Nat) (hN : 2 ≤ N) : dataOf N L < N :=
  dataSlotOf_lt (parityOf_lt L (by omega)) (posOf_lt L hN)

theorem dataOf_ne_parityOf (N L : Nat) : dataOf N L ≠ parityOf N L :=
  dataSlotOf_ne_parity _ _

/-- An RMW write with both slots present preserves the XOR of every stripe
exactly (in particular parity consistency). -/
theorem rmwWrite_stripeXor (s : RState) (lb : Nat) (nd : Block)
    (hN : 2 ≤ s.N)
    (hdd : s.missing (dataOf s.N lb) = false)
    (hpar : s.missing (parityOf s.N lb) = false) (T : Nat) :
    stripeXor (rmwWrite s lb nd).1 T = stripeXor s T := by
  rw [rmwWrite_ok s lb nd hdd hpar]
  set st := stripeOf s.N lb with hst
  set dd := dataOf s.N lb with hdddef
  set p := parityOf s.N lb with hpdef
  set s1 := pwriteB s dd st nd with hs1
  by_cases hT : T = st
  · subst hT
    have hddlt : dd < s.N := dataOf_lt lb hN
    have hplt : p < s.N := parityOf_lt lb (by omega)
    have hplt1 : p < s1.N := by rw [hs1, pwriteB_N]; exact hplt
    rw [stripeXor_pwriteB s1 st _ hplt1]
    rw [hs1, stripeXor_pwriteB s st nd hddlt]
    have hpd : ¬(p = dd ∧ st = st) := fun hc => (dataOf_ne_parityOf s.N lb) hc.1.symm
    rw [pwriteB_disks_other s dd st nd hpd]
    simp only [blockXor_assoc, blockXor_comm, blockXor_left_comm,
      blockXor_cancel_left, blockXor_self, blockXor_zero, zero_blockXor]
  · rw [stripeXor_pwriteB_other _ _ _ _ hT, hs1, stripeXor_pwriteB_other _ _ _ _ hT]

theorem writeBlocksSt_zero (s : RState) (lb : Nat) (data : Nat → Block) :
    writeBlocksSt s lb 0 data = (s, .ok ()) := by
  rw [writeBlocksSt, dif_pos rfl]

theorem writeBlocksSt_full_ok {s : RState} {lb k : Nat} {data : Nat → Block}
    (hk : k ≠ 0) (hc : 2 ≤ s.N ∧ lb % (s.N - 1) = 0 ∧ s.N - 1 ≤ k)
    {s2 : RState}
    (hok : fullStripeWrite s (stripeOf s.N lb) data = (s2, .ok ())) :
    writeBlocksSt s lb k data
      = writeBlocksSt s2 (lb + (s.N - 1)) (k - (s.N - 1))
          (fun d => data (d + (s.N - 1))) := by
  rw [writeBlocksSt, dif_neg hk, dif_pos hc, hok]

theorem writeBlocksSt_full_err {s : RState} {lb k : Nat} {data : Nat → Block}
    (hk : k ≠ 0) (hc : 2 ≤ s.N ∧ lb % (s.N - 1) = 0 ∧ s.N - 1 ≤ k)
    {s2 : RState} {e : Err}
    (herr : fullStripeWrite s (stripeOf s.N lb) data = (s2, .error e)) :
    writeBlocksSt s lb k data = (s2, .error e) := by
  rw [writeBlocksSt, dif_neg hk, dif_pos hc, herr]

theorem writeBlocksSt_rmw_ok {s : RState} {lb k : Nat} {data : Nat → Block}
    (hk : k ≠ 0) (hc : ¬(2 ≤ s.N ∧ lb % (s.N - 1) = 0 ∧ s.N - 1 ≤ k))
    {s2 : RState}
    (hok : rmwWrite s lb (data 0) = (s2, .ok ())) :
    writeBlocksSt s lb k data
      = writeBlocksSt s2 (lb + 1) (k - 1) (fun d => data (d + 1)) := by
  rw [writeBlocksSt, dif_neg hk, dif_neg hc, hok]

theorem stripeXor_congr {s2 s : RState} (T : Nat) (hN : s2.N = s.N)
    (hd : ∀ i, i < s.N → s2.disks i T = s.disks i T) :
    stripeXor s2 T = stripeXor s T := by
  unfold stripeXor
  rw [hN]
  exact xorUpToM_congr_lt _ hd

/-- With every slot present, any block-aligned write request succeeds,
never changes the device count or the missing flags, and preserves parity
consistency of every stripe `T`. -/
theorem writeBlocksSt_inv (T : Nat) :
    ∀ (k : Nat) (s : RState) (lb : Nat) (data : Nat → Block),
      3 ≤ s.N → (∀ i, i < s.N → s.missing i = false) →
      ((writeBlocksSt s lb k data).1.N = s.N ∧
       (writeBlocksSt s lb k data).1.missing = s.missing ∧
       (writeBlocksSt s lb k data).2 = .ok () ∧
       ((∀ j, stripeXor s T j = 0) →
         ∀ j, stripeXor (writeBlocksSt s lb k data).1 T j = 0)) := by
  intro k
  induction k using Nat.strong_induction_on with
  | _ k ih =>
    intro s lb data hN hall
    by_cases hk : k = 0
    · subst hk
      rw [writeBlocksSt_zero]
      exact ⟨rfl, rfl, rfl, fun h => h⟩
    · by_cases hc : 2 ≤ s.N ∧ lb % (s.N - 1) = 0 ∧ s.N - 1 ≤ k
      · -- full-stripe fast path
        set st := stripeOf s.N lb with hst
        have hplt : st % s.N < s.N := Nat.mod_lt _ (by omega)
        have hpar : s.missing (st % s.N) = false := hall _ hplt
        have hok := fullStripeWrite_ok s st data hpar
        set s2 := pwriteB (writeDataLoop s (st % s.N) st data (List.range (s.N - 1)))
          (st % s.N) st (xorUpToM data (s.N - 1)) with hs2
        have hs2N : s2.N = s.N := by
          have := fullStripeWrite_fst_N s st data
          rw [hok] at this
          exact this
        have hs2m : s2.missing = s.missing := by
          have := fullStripeWrite_fst_missing s st data
          rw [hok] at this
          exact this
        have hall2 : ∀ i, i < s2.N → s2.missing i = false := by
          intro i hi
          rw [hs2m]
          exact hall i (by rwa [hs2N] at hi)
        have hrec := ih (k - (s.N - 1)) (by omega) s2 (lb + (s.N - 1))
          (fun d => data (d + (s.N - 1))) (by rw [hs2N]; exact hN) hall2
        rw [writeBlocksSt_full_ok hk hc hok]
        refine ⟨hrec.1.trans hs2N, hrec.2.1.trans hs2m, hrec.2.2.1, ?_⟩
        intro hconsS
        apply hrec.2.2.2
        by_cases hT : T = st
        · intro j
          rw [hT]
          have hcons2 := fullStripeWrite_consistent s st data (by omega) hall j
          rw [hok] at hcons2
          exact hcons2
        · intro j
          have heq : stripeXor s2 T = stripeXor s T := by
            apply stripeXor_congr T hs2N
            intro i hi
            have := fullStripeWrite_disks_otherStripe s st data (i := i) hT
            rw [hok] at this
            exact this
          rw [heq]
          exact hconsS j
      · -- read-modify-write slow path
        have hN2 : 2 ≤ s.N := by omega
        have hddp : s.missing (dataOf s.N lb) = false := hall _ (dataOf_lt lb hN2)
        have hparp : s.missing (parityOf s.N lb) = false :=
          hall _ (parityOf_lt lb (by omega))
        have hok := rmwWrite_ok s lb (data 0) hddp hparp
        set s2 := pwriteB (pwriteB s (dataOf s.N lb) (stripeOf s.N lb) (data 0))
          (parityOf s.N lb) (stripeOf s.N lb)
          (blockXor (blockXor (s.disks (parityOf s.N lb) (stripeOf s.N lb))
            (s.disks (dataOf s.N lb) (stripeOf s.N lb))) (data 0)) with hs2
        have hs2N : s2.N = s.N := by
          have := rmwWrite_fst_N s lb (data 0)
          rw [hok] at this
          exact this
        have hs2m : s2.missing = s.missing := by
          have := rmwWrite_fst_missing s lb (data 0)
          rw [hok] at this
          exact this
        have hall2 : ∀ i, i < s2.N → s2.missing i = false := by
          intro i hi
          rw [hs2m]
          exact hall i (by rwa [hs2N] at hi)
        have hrec := ih (k - 1) (by omega) s2 (lb + 1)
          (fun d => data (d + 1)) (by rw [hs2N]; exact hN) hall2
        rw [writeBlocksSt_rmw_ok hk hc hok]
        refine ⟨hrec.1.trans hs2N, hrec.2.1.trans hs2m, hrec.2.2.1, ?_⟩
        intro hconsS
        apply hrec.2.2.2
        intro j
        have heq : stripeXor s2 T = stripeXor s T := by
          have := rmwWrite_stripeXor s lb (data 0) hN2 hddp hparp T
          rw [hok] at this
          exact this
        rw [heq]
        exact hconsS j

/- Rebuild lemmas. -/

/-- The block `do_raid5_rebuild` writes to the target slot at one stripe:
the accumulator's initial value (zero when rebuilding the parity slot;
otherwise the parity block, or zero when the parity slot is missing) XORed
with all remaining slots' blocks. -/
def rebuildValue (u : RState) (t st : Nat) : Block :=
  let p := st % u.N
  blockXor
    (if t = p then zeroBlock
     else if u.missing p = true then zeroBlock else u.disks p st)
    (xorUpToM (fun i => if i = p ∨ i = t then zeroBlock else u.disks i st) u.N)

/-- When every slot other than the parity slot and the target is present,
one rebuild stripe succeeds and writes `rebuildValue` to the target. -/
theorem rebuildOneStripe_run (u : RState) (t st : Nat)
    (hoth : ∀ i, i < u.N → i ≠ st % u.N → i ≠ t → u.missing i = false) :
    rebuildOneStripe u t st = (pwriteB u t st (rebuildValue u t st), .ok ()) := by
  simp only [rebuildOneStripe, preadB]
  rw [reconFold_ok _ _ _ _ _ _ (fun i hi => hoth i (List.mem_range.mp hi)),
    foldl_skipXor_range]
  rfl

theorem rebuildValue_congr (u s : RState) (t st : Nat) (hN : u.N = s.N)
    (hm : u.missing = s.missing)
    (hd : ∀ i, i ≠ t → u.disks i st = s.disks i st) :
    rebuildValue u t st = rebuildValue s t st := by
  simp only [rebuildValue]
  rw [hN, hm]
  have hfst : (if t = st % s.N then zeroBlock
      else if s.missing (st % s.N) = true then zeroBlock else u.disks (st % s.N) st)
      = (if t = st % s.N then zeroBlock
      else if s.missing (st % s.N) = true then zeroBlock else s.disks (st % s.N) st) := by
    by_cases htp : t = st % s.N
    · rw [if_pos htp, if_pos htp]
    · rw [if_neg htp, if_neg htp]
      by_cases hmp : s.missing (st % s.N) = true
      · rw [if_pos hmp, if_pos hmp]
      · rw [if_neg hmp, if_neg hmp]
        exact hd _ (fun h => htp h.symm)
  have hsnd : (fun i => if i = st % s.N ∨ i = t then zeroBlock else u.disks i st)
      = (fun i => if i = st % s.N ∨ i = t then zeroBlock else s.disks i st) := by
    funext i
    by_cases hski : i = st % s.N ∨ i = t
    · rw [if_pos hski, if_pos hski]
    · rw [if_neg hski, if_neg hski]
      exact hd i (fun h => hski (Or.inr h))
  rw [hfst, hsnd]

theorem mask_eq_of_xor_zero_fun (f : Nat → Block) {m n : Nat} (hm : m < n)
    (hz : ∀ j, xorUpToM f n j = 0) :
    xorUpToM (fun i => if i = m then zeroBlock else f i) n = f m :=
  funext (mask_eq_of_xor_zero f hm hz)

/-- On a parity-consistent stripe with the needed slots present, the
rebuild recomputes exactly the target slot's current block. -/
theorem rebuildValue_eq_orig (s : RState) (t st : Nat) (hN : 0 < s.N)
    (ht : t < s.N)
    (hmp : t ≠ st % s.N → s.missing (st % s.N) = false)
    (hcons : parityConsistent s st) :
    rebuildValue s t st = s.disks t st := by
  have hp : st % s.N < s.N := Nat.mod_lt _ hN
  simp only [rebuildValue]
  by_cases htp : t = st % s.N
  · rw [if_pos htp]
    have hfun : (fun i => if i = st % s.N ∨ i = t then zeroBlock else s.disks i st)
        = (fun i => if i = t then zeroBlock else s.disks i st) := by
      funext i
      by_cases hit : i = t
      · rw [if_pos (Or.inr hit), if_pos hit]
      · rw [if_neg (by rw [← htp]; tauto), if_neg hit]
    rw [hfun, zero_blockXor]
    exact mask_eq_of_xor_zero_fun _ ht hcons
  · rw [if_neg htp, if_neg (by simp [hmp htp])]
    have hc := mask_two_combine (fun i => s.disks i st) (d := t) hp
      (fun h => htp h.symm)
    rw [hc]
    exact mask_eq_of_xor_zero_fun _ ht hcons

/-- Running the rebuild loop from any state that agrees with the reference
state `s` on every slot other than the target `t`: it succeeds, rewrites
slot `t` at each scanned stripe to `rebuildValue s`, and touches nothing
else. -/
theorem rebuildStripes_run (s : RState) (t : Nat)
    (hoth : ∀ i, i < s.N → i ≠ t → s.missing i = false) :
    ∀ (l : List Nat) (u : RState), u.N = s.N → u.missing = s.missing →
      (∀ i, i ≠ t → ∀ st2, u.disks i st2 = s.disks i st2) →
      ((rebuildStripes u t l).2 = .ok () ∧
       (rebuildStripes u t l).1.N = s.N ∧
       (rebuildStripes u t l).1.missing = s.missing ∧
       (∀ i, i ≠ t → ∀ st2, (rebuildStripes u t l).1.disks i st2 = s.disks i st2) ∧
       (∀ st2, (rebuildStripes u t l).1.disks t st2
         = if st2 ∈ l then rebuildValue s t st2 else u.disks t st2)) := by
  intro l
  induction l with
  | nil =>
      intro u h1 h2 h3
      exact ⟨rfl, h1, h2, h3, fun st2 => by simp [rebuildStripes]⟩
  | cons st rest ih =>
      intro u h1 h2 h3
      have hothU : ∀ i, i < u.N → i ≠ st % u.N → i ≠ t → u.missing i = false := by
        intro i hi _ hit
        rw [h2]
        exact hoth i (by rwa [h1] at hi) hit
      have hone := rebuildOneStripe_run u t st hothU
      have hveq : rebuildValue u t st = rebuildValue s t st :=
        rebuildValue_congr u s t st h1 h2 (fun i hit => h3 i hit st)
      rw [hveq] at hone
      set u1 := pwriteB u t st (rebuildValue s t st) with hu1
      have hstep : rebuildStripes u t (st :: rest) = rebuildStripes u1 t rest := by
        simp only [rebuildStripes]
        rw [hone]
      have hrec := ih u1 (by rw [hu1, pwriteB_N, h1]) (by rw [hu1, pwriteB_missing, h2])
        (by
          intro i hit st2
          rw [hu1, pwriteB_disks_other u t st _ (fun hcon => hit hcon.1)]
          exact h3 i hit st2)
      rw [hstep]
      refine ⟨hrec.1, hrec.2.1, hrec.2.2.1, hrec.2.2.2.1, ?_⟩
      intro st2
      rw [hrec.2.2.2.2 st2]
      by_cases hmem : st2 ∈ rest
      · rw [if_pos hmem, if_pos (List.mem_cons_of_mem st hmem)]
      · rw [if_neg hmem]
        by_cases hst2 : st2 = st
        · subst hst2
          rw [hu1, pwriteB_disks_same, if_pos (List.mem_cons_self st2 rest)]
        · rw [hu1, pwriteB_disks_other u t st _ (fun hcon => hst2 hcon.2),
              if_neg (by
                intro hmem2
                rcases List.mem_cons.mp hmem2 with h | h
                · exact hst2 h
                · exact hmem h)]

/- Geometry lemmas for stripe-aligned addresses. -/

theorem stripeOf_mul_add {N : Nat} (t b : Nat) (hN : 2 ≤ N) (hb : b < N - 1) :
    stripeOf N (t * (N - 1) + b) = t := by
  unfold stripeOf
  rw [Nat.mul_comm t (N - 1), Nat.mul_add_div (by omega), Nat.div_eq_of_lt hb,
    Nat.add_zero]

theorem posOf_mul_add {N : Nat} (t b : Nat) (hb : b < N - 1) :
    posOf N (t * (N - 1) + b) = b := by
  unfold posOf
  rw [Nat.mul_comm t (N - 1), Nat.mul_add_mod, Nat.mod_eq_of_lt hb]

theorem stripeOf_mul {N : Nat} (t : Nat) (hN : 2 ≤ N) :
    stripeOf N (t * (N - 1)) = t := by
  unfold stripeOf
  rw [Nat.mul_comm t (N - 1), Nat.mul_div_cancel_left t (by omega)]

theorem mul_mod_stripe {N : Nat} (t : Nat) : (t * (N - 1)) % (N - 1) = 0 :=
  Nat.mul_mod_left t (N - 1)

/-- C1: for every device count `3 ≤ N ≤ 16`, block size `B > 0` and logical
block `L`, the engine's placement computation satisfies the mapping laws
`L = stripe·(N−1) + pos` with `0 ≤ pos < N−1`, `parity = stripe mod N ∈ [0,N)`,
`data ∈ [0,N) ∖ {parity}` with the tie-break `pos < parity → data = pos` and
`pos ≥ parity → data = pos + 1`, and `phys_off = stripe·B`; and concretely
for `B = 4, N = 3`: `L = 0 ↦ (stripe 0, parity 0, data 1, phys_off 0)`,
`L = 1 ↦ (stripe 0, parity 0, data 2, phys_off 0)`,
`L = 2 ↦ (stripe 1, parity 1, data 0, phys_off 4)`. -/
theorem claim_C1_placement (N B L : Nat) (hN1 : 3 ≤ N) (hN2 : N ≤ 16)
    (hB : 0 < B) :
    (L = stripeOf N L * (N - 1) + posOf N L ∧
     posOf N L < N - 1 ∧
     parityOf N L < N ∧
     dataOf N L < N ∧
     dataOf N L ≠ parityOf N L ∧
     (posOf N L < parityOf N L → dataOf N L = posOf N L) ∧
     (parityOf N L ≤ posOf N L → dataOf N L = posOf N L + 1) ∧
     physOff N B L = stripeOf N L * B) ∧
    (stripeOf 3 0 = 0 ∧ parityOf 3 0 = 0 ∧ dataOf 3 0 = 1 ∧ physOff 3 4 0 = 0) ∧
    (stripeOf 3 1 = 0 ∧ parityOf 3 1 = 0 ∧ dataOf 3 1 = 2 ∧ physOff 3 4 1 = 0) ∧
    (stripeOf 3 2 = 1 ∧ parityOf 3 2 = 1 ∧ dataOf 3 2 = 0 ∧ physOff 3 4 2 = 4) := by
  refine ⟨⟨?_, ?_, ?_, ?_, ?_, ?_, ?_, rfl⟩, by decide, by decide, by decide⟩
  · unfold stripeOf posOf
    rw [Nat.mul_comm]
    exact (Nat.div_add_mod L (N - 1)).symm
  · exact Nat.mod_lt _ (by omega)
  · exact Nat.mod_lt _ (by omega)
  · exact dataOf_lt L (by omega)
  · exact dataOf_ne_parityOf N L
  · intro h
    unfold dataOf dataSlotOf
    rw [if_neg (by omega)]
  · intro h
    unfold dataOf dataSlotOf
    rw [if_pos h]

/-- Witness for C1 at `N = 5`, `B = 8`, `L = 7`. -/
theorem claim_C1_witness :
    (3 ≤ 5 ∧ 5 ≤ 16 ∧ 0 < 8) ∧
    ((7 = stripeOf 5 7 * (5 - 1) + posOf 5 7 ∧
      posOf 5 7 < 5 - 1 ∧
      parityOf 5 7 < 5 ∧
      dataOf 5 7 < 5 ∧
      dataOf 5 7 ≠ parityOf 5 7 ∧
      (posOf 5 7 < parityOf 5 7 → dataOf 5 7 = posOf 5 7) ∧
      (parityOf 5 7 ≤ posOf 5 7 → dataOf 5 7 = posOf 5 7 + 1) ∧
      physOff 5 8 7 = stripeOf 5 7 * 8) ∧
     (stripeOf 3 0 = 0 ∧ parityOf 3 0 = 0 ∧ dataOf 3 0 = 1 ∧ physOff 3 4 0 = 0) ∧
     (stripeOf 3 1 = 0 ∧ parityOf 3 1 = 0 ∧ dataOf 3 1 = 2 ∧ physOff 3 4 1 = 0) ∧
     (stripeOf 3 2 = 1 ∧ parityOf 3 2 = 1 ∧ dataOf 3 2 = 0 ∧ physOff 3 4 2 = 4)) :=
  ⟨by decide, claim_C1_placement 5 8 7 (by decide) (by decide) (by decide)⟩

/-- C10: a read request, for any length, offset and slot configuration,
never writes to any back-end device: the engine state after `xmp_read` is
identical to the state before, whether the request succeeds or fails. -/
theorem claim_C10_read_frame (s : RState) (lb k : Nat) :
    (readBlocksSt s lb k).1 = s :=
  readBlocksSt_fst k s lb

/-- C9 (code bug): the source never validates the BLOCKSIZE token.
`strtoul("abc")` yields `0` with no error check (`parse_opt`, line 64), and
startup then evaluates `size / block_size` (line 403) with a zero divisor —
an integer division by zero (SIGFPE crash), modelled as `sigfpeDivByZero` —
instead of treating the unparseable block size as a configuration error. -/
theorem claim_C9_blocksize_divzero :
    strtoul10 "abc" = 0 ∧
    mainStartup "abc"
        [DevSpec.presentDev false 4096, DevSpec.presentDev false 4096,
         DevSpec.presentDev false 4096]
      = .error .sigfpeDivByZero :=
  ⟨rfl, rfl⟩

/-- A degraded 3-device set whose slot 0 is missing, with rebuild target
slot 1: at stripe 0 the parity slot (`0 % 3 = 0`) is the missing slot. -/
def c8State : RState :=
  { N := 3,
    missing := fun i => decide (i = 0),
    disks := fun i _ _ => if i = 2 then 7 else 3 }

/-- C8 counterexample: rebuilding data slot 1 of `c8State` over one stripe,
where the stripe's parity slot 0 is missing, `do_raid5_rebuild` returns 0
(success) — not a nonzero error as the claim states — and writes the XOR of
the remaining data blocks with parity treated as all-zero: slot 1's block
becomes `0 ⊕ 7 = 7`, where its pre-rebuild content was `3`. -/
theorem claim_C8_counterexample :
    (doRebuild c8State 1 1).2 = Except.ok () ∧
    (doRebuild c8State 1 1).1.disks 1 0 0 = 7 ∧
    c8State.disks 1 0 0 = 3 :=
  ⟨rfl, rfl, rfl⟩

/-- C8 amended: when the rebuild target `t` is a data slot of stripe `st`
and that stripe's parity slot is the (single) missing slot `m`, the rebuild
does NOT fail: it proceeds treating the missing parity block as all-zero,
writing to the target the XOR of the remaining slots' blocks alone (which
need not equal the original content), and the stripe completes with
success. -/
theorem claim_C8_amended (s : RState) (t st m : Nat)
    (hmiss : ∀ i, s.missing i = decide (i = m))
    (hpm : st % s.N = m) (hmt : m ≠ t) :
    rebuildOneStripe s t st
      = (pwriteB s t st (blockXor zeroBlock
          (xorUpToM (fun i => if i = st % s.N ∨ i = t then zeroBlock
                              else s.disks i st) s.N)), .ok ()) := by
  have hrun := rebuildOneStripe_run s t st (by
    intro i _ hip _
    rw [hmiss i]
    simp only [decide_eq_false_iff_not]
    rw [hpm] at hip
    exact hip)
  rw [hrun]
  have hv : rebuildValue s t st
      = blockXor zeroBlock
          (xorUpToM (fun i => if i = st % s.N ∨ i = t then zeroBlock
                              else s.disks i st) s.N) := by
    simp only [rebuildValue]
    rw [if_neg (fun h => hmt (by rw [← hpm, ← h])),
      if_pos (by rw [hmiss, hpm]; simp)]
  rw [hv]

/-- Witness for the C8 amended claim at the `c8State` configuration. -/
theorem claim_C8_amended_witness :
    ((∀ i, c8State.missing i = decide (i = 0)) ∧ 0 % c8State.N = 0 ∧ 0 ≠ 1) ∧
    rebuildOneStripe c8State 1 0
      = (pwriteB c8State 1 0 (blockXor zeroBlock
          (xorUpToM (fun i => if i = 0 % c8State.N ∨ i = 1 then zeroBlock
                              else c8State.disks i 0) c8State.N)), .ok ()) :=
  ⟨⟨fun _ => rfl, rfl, by decide⟩,
   claim_C8_amended c8State 1 0 0 (fun _ => rfl) rfl (by decide)⟩

/-- C5: when `offset mod ((N−1)·B) = 0` and the remaining length is at
least `(N−1)·B` (in blocks: `lb mod (N−1) = 0` and `N−1 ≤ k`), the engine
takes the full-stripe path.  With the parity slot present: incoming block
`d` is written at the stripe's physical offset to slot `d` if `d < parity`
else `d + 1`, missing data slots are skipped (their old content stays), the
XOR of all `N−1` incoming blocks is written to the parity slot, the rest of
the request continues after the stripe, and no other stripe is touched.
With the parity slot missing, the write returns an error. -/
theorem claim_C5_fullstripe (s : RState) (lb k : Nat) (data : Nat → Block)
    (hN : 3 ≤ s.N) (halign : lb % (s.N - 1) = 0) (hlen : s.N - 1 ≤ k) :
    (s.missing (stripeOf s.N lb % s.N) = false →
       (writeBlocksSt s lb k data
          = writeBlocksSt (fullStripeWrite s (stripeOf s.N lb) data).1
              (lb + (s.N - 1)) (k - (s.N - 1)) (fun d => data (d + (s.N - 1))) ∧
        (fullStripeWrite s (stripeOf s.N lb) data).2 = .ok () ∧
        (fullStripeWrite s (stripeOf s.N lb) data).1.disks
            (stripeOf s.N lb % s.N) (stripeOf s.N lb)
          = xorUpToM data (s.N - 1) ∧
        (∀ d, d < s.N - 1 →
          s.missing (dataSlotOf (stripeOf s.N lb % s.N) d) = false →
          (fullStripeWrite s (stripeOf s.N lb) data).1.disks
              (dataSlotOf (stripeOf s.N lb % s.N) d) (stripeOf s.N lb) = data d) ∧
        (∀ d, d < s.N - 1 →
          s.missing (dataSlotOf (stripeOf s.N lb % s.N) d) = true →
          (fullStripeWrite s (stripeOf s.N lb) data).1.disks
              (dataSlotOf (stripeOf s.N lb % s.N) d) (stripeOf s.N lb)
            = s.disks (dataSlotOf (stripeOf s.N lb % s.N) d) (stripeOf s.N lb)) ∧
        (∀ i st2, st2 ≠ stripeOf s.N lb →
          (fullStripeWrite s (stripeOf s.N lb) data).1.disks i st2
            = s.disks i st2))) ∧
    (s.missing (stripeOf s.N lb % s.N) = true →
       ((fullStripeWrite s (stripeOf s.N lb) data).2
          = .error .fullStripeParityMissing ∧
        (writeBlocksSt s lb k data).2 = .error .fullStripeParityMissing)) := by
  have hk : k ≠ 0 := by omega
  have hc : 2 ≤ s.N ∧ lb % (s.N - 1) = 0 ∧ s.N - 1 ≤ k := ⟨by omega, halign, hlen⟩
  constructor
  · intro hpar
    have hok := fullStripeWrite_ok s (stripeOf s.N lb) data hpar
    refine ⟨?_, ?_, fullStripeWrite_disks_parity s _ data hpar, ?_, ?_,
      fun i st2 hst2 => fullStripeWrite_disks_otherStripe s _ data hst2⟩
    · rw [show (fullStripeWrite s (stripeOf s.N lb) data).1
          = pwriteB (writeDataLoop s (stripeOf s.N lb % s.N) (stripeOf s.N lb) data
              (List.range (s.N - 1))) (stripeOf s.N lb % s.N) (stripeOf s.N lb)
              (xorUpToM data (s.N - 1)) from by rw [hok]]
      exact writeBlocksSt_full_ok hk hc hok
    · rw [hok]
    · intro d hd hdm
      have := fullStripeWrite_disks_data s (stripeOf s.N lb) data hpar hd
      rwa [if_neg (by simp [hdm])] at this
    · intro d hd hdm
      have := fullStripeWrite_disks_data s (stripeOf s.N lb) data hpar hd
      rwa [if_pos hdm] at this
  · intro hpar
    have herr := fullStripeWrite_err s (stripeOf s.N lb) data hpar
    constructor
    · rw [herr]
    · rw [writeBlocksSt_full_err hk hc herr]

/-- A 3-device, all-present state with zeroed contents, used as witness
input. -/
def wState : RState :=
  { N := 3, missing := fun _ => false, disks := fun _ _ _ => 0 }

/-- Witness for C5 at `wState`, `lb = 0`, `k = 2`. -/
theorem claim_C5_witness :
    (3 ≤ wState.N ∧ 0 % (wState.N - 1) = 0 ∧ wState.N - 1 ≤ 2) ∧
    ((wState.missing (stripeOf wState.N 0 % wState.N) = false →
       (writeBlocksSt wState 0 2 (fun _ _ => 65)
          = writeBlocksSt (fullStripeWrite wState (stripeOf wState.N 0) (fun _ _ => 65)).1
              (0 + (wState.N - 1)) (2 - (wState.N - 1))
              (fun d => (fun _ _ => 65) (d + (wState.N - 1))) ∧
        (fullStripeWrite wState (stripeOf wState.N 0) (fun _ _ => 65)).2 = .ok () ∧
        (fullStripeWrite wState (stripeOf wState.N 0) (fun _ _ => 65)).1.disks
            (stripeOf wState.N 0 % wState.N) (stripeOf wState.N 0)
          = xorUpToM (fun _ _ => 65) (wState.N - 1) ∧
        (∀ d, d < wState.N - 1 →
          wState.missing (dataSlotOf (stripeOf wState.N 0 % wState.N) d) = false →
          (fullStripeWrite wState (stripeOf wState.N 0) (fun _ _ => 65)).1.disks
              (dataSlotOf (stripeOf wState.N 0 % wState.N) d) (stripeOf wState.N 0)
            = (fun _ _ => 65) d) ∧
        (∀ d, d < wState.N - 1 →
          wState.missing (dataSlotOf (stripeOf wState.N 0 % wState.N) d) = true →
          (fullStripeWrite wState (stripeOf wState.N 0) (fun _ _ => 65)).1.disks
              (dataSlotOf (stripeOf wState.N 0 % wState.N) d) (stripeOf wState.N 0)
            = wState.disks (dataSlotOf (stripeOf wState.N 0 % wState.N) d)
                (stripeOf wState.N 0)) ∧
        (∀ i st2, st2 ≠ stripeOf wState.N 0 →
          (fullStripeWrite wState (stripeOf wState.N 0) (fun _ _ => 65)).1.disks i st2
            = wState.disks i st2))) ∧
     (wState.missing (stripeOf wState.N 0 % wState.N) = true →
       ((fullStripeWrite wState (stripeOf wState.N 0) (fun _ _ => 65)).2
          = .error .fullStripeParityMissing ∧
        (writeBlocksSt wState 0 2 (fun _ _ => 65)).2
          = .error .fullStripeParityMissing))) :=
  ⟨⟨by decide, by decide, by decide⟩,
   claim_C5_fullstripe wState 0 2 (fun _ _ => 65) (by decide) (by decide) (by decide)⟩

/-- C4: a read request touching a logical block whose data slot is missing
while the stripe's parity slot — or any other slot of the stripe — is also
missing returns an error, and the engine state is unchanged (no
reconstructed bytes are produced for that block). -/
theorem claim_C4_double_failure (s : RState) (lb k j : Nat) (hN : 3 ≤ s.N)
    (hj : j < k)
    (hdd : s.missing (dataOf s.N (lb + j)) = true)
    (hsecond : s.missing (parityOf s.N (lb + j)) = true ∨
      ∃ i, i < s.N ∧ i ≠ parityOf s.N (lb + j) ∧ i ≠ dataOf s.N (lb + j) ∧
        s.missing i = true) :
    (∃ e, (readBlocksSt s lb k).2 = Except.error e) ∧
    (readBlocksSt s lb k).1 = s := by
  refine ⟨?_, readBlocksSt_fst k s lb⟩
  apply readBlocksSt_err
  refine ⟨j, hj, ?_⟩
  rcases hsecond with hpar | hpeer
  · exact ⟨.readDoubleMissing, by rw [readOneBlockSt_err_parity s _ hdd hpar]⟩
  · exact readOneBlockSt_err_peer s _ hdd hpeer

/-- A 3-device state with slots 0 and 1 missing (slot 1 is the data slot of
logical block 0, slot 0 its parity slot). -/
def c4State : RState :=
  { N := 3, missing := fun i => decide (i < 2), disks := fun _ _ _ => 0 }

/-- Witness for C4 at `c4State`, request `lb = 0`, `k = 1`, block `j = 0`. -/
theorem claim_C4_witness :
    (3 ≤ c4State.N ∧ 0 < 1 ∧ c4State.missing (dataOf c4State.N (0 + 0)) = true ∧
     c4State.missing (parityOf c4State.N (0 + 0)) = true) ∧
    ((∃ e, (readBlocksSt c4State 0 1).2 = Except.error e) ∧
     (readBlocksSt c4State 0 1).1 = c4State) :=
  ⟨⟨by decide, by decide, by decide, by decide⟩,
   claim_C4_double_failure c4State 0 1 0 (by decide) (by decide) (by decide)
     (Or.inl (by decide))⟩

/-- With exactly one slot `m` missing, one block read succeeds and returns
the value described by `readBlockSpecC3`. -/
theorem readOneBlockSt_oneMissing (s : RState) (m L : Nat)
    (hmiss : ∀ i, s.missing i = decide (i = m)) :
    readOneBlockSt s L = (s, .ok (readBlockSpecC3 s m L)) := by
  by_cases hd : dataOf s.N L = m
  · have hdd : s.missing (dataOf s.N L) = true := by
      rw [hmiss]; simp [hd]
    have hpar : s.missing (parityOf s.N L) = false := by
      rw [hmiss]
      simp only [decide_eq_false_iff_not]
      intro hcon
      exact dataOf_ne_parityOf s.N L (hd.trans hcon.symm)
    have hothers : ∀ i, i < s.N → i ≠ parityOf s.N L → i ≠ dataOf s.N L →
        s.missing i = false := by
      intro i _ _ hid
      rw [hmiss]
      simp only [decide_eq_false_iff_not]
      rw [← hd]
      exact hid
    rw [readOneBlockSt_degraded s L hdd hpar hothers]
    have hspec : readBlockSpecC3 s m L
        = blockXor (s.disks (parityOf s.N L) (stripeOf s.N L))
            (xorUpToM (fun i => if i = parityOf s.N L ∨ i = dataOf s.N L
                then zeroBlock else s.disks i (stripeOf s.N L)) s.N) := by
      simp only [readBlockSpecC3]
      rw [if_neg (fun hcon => hcon hd)]
    rw [hspec]
  · have hdd : s.missing (dataOf s.N L) = false := by
      rw [hmiss]; simp [hd]
    rw [readOneBlockSt_present s L hdd]
    have hspec : readBlockSpecC3 s m L
        = s.disks (dataOf s.N L) (stripeOf s.N L) := by
      simp only [readBlockSpecC3]
      rw [if_pos hd]
    rw [hspec]

/-- On a parity-consistent stripe the degraded-read description reproduces
the non-degraded content of the block. -/
theorem readBlockSpecC3_consistent (s : RState) (m L : Nat) (hN : 3 ≤ s.N)
    (hcons : parityConsistent s (stripeOf s.N L)) :
    readBlockSpecC3 s m L = s.disks (dataOf s.N L) (stripeOf s.N L) := by
  simp only [readBlockSpecC3]
  by_cases hd : dataOf s.N L ≠ m
  · rw [if_pos hd]
  · rw [if_neg hd]
    have hp : parityOf s.N L < s.N := parityOf_lt L (by omega)
    have hdn : dataOf s.N L < s.N := dataOf_lt L (by omega)
    have hpd : parityOf s.N L ≠ dataOf s.N L :=
      fun h => dataOf_ne_parityOf s.N L h.symm
    have h1 := mask_two_combine (fun i => s.disks i (stripeOf s.N L))
      (d := dataOf s.N L) hp hpd
    have h2 := mask_eq_of_xor_zero_fun (fun i => s.disks i (stripeOf s.N L))
      (m := dataOf s.N L) hdn hcons
    exact h1.trans h2

/-- C3: with exactly one slot `m` missing, every read request succeeds with
state unchanged, each block whose data slot is present read directly and
each block whose data slot is `m` returned as the XOR of the stripe's
parity block and the other `N−2` data blocks; on a parity-consistent
stripe that reconstruction equals the non-degraded content. -/
theorem claim_C3_degraded_read (s : RState) (m lb k : Nat) (hN : 3 ≤ s.N)
    (hm : m < s.N) (hmiss : ∀ i, s.missing i = decide (i = m)) :
    readBlocksSt s lb k
      = (s, .ok ((List.range k).map (fun j => readBlockSpecC3 s m (lb + j)))) ∧
    (∀ L, parityConsistent s (stripeOf s.N L) →
      readBlockSpecC3 s m L = s.disks (dataOf s.N L) (stripeOf s.N L)) := by
  constructor
  · exact readBlocksSt_mapOk (readBlockSpecC3 s m) k s lb
      (fun j _ => readOneBlockSt_oneMissing s m (lb + j) hmiss)
  · exact fun L hcons => readBlockSpecC3_consistent s m L hN hcons

/-- A 3-device state with only slot 1 missing and zeroed (hence
parity-consistent) contents. -/
def c3State : RState :=
  { N := 3, missing := fun i => decide (i = 1), disks := fun _ _ _ => 0 }

/-- Witness for C3 at `c3State`, request `lb = 0`, `k = 2`. -/
theorem claim_C3_witness :
    (3 ≤ c3State.N ∧ 1 < c3State.N ∧
      (∀ i, c3State.missing i = decide (i = 1))) ∧
    (readBlocksSt c3State 0 2
       = (c3State,
          .ok ((List.range 2).map (fun j => readBlockSpecC3 c3State 1 (0 + j)))) ∧
     (∀ L, parityConsistent c3State (stripeOf c3State.N L) →
       readBlockSpecC3 c3State 1 L
         = c3State.disks (dataOf c3State.N L) (stripeOf c3State.N L))) :=
  ⟨⟨by decide, by decide, fun _ => rfl⟩,
   claim_C3_degraded_read c3State 1 0 2 (by decide) (by decide) (fun _ => rfl)⟩

/-- A full-stripe-aligned write of `N−1` blocks at stripe `t` with all
slots present is exactly one pass of the fast path and succeeds. -/
theorem writeFullStripe_result (s : RState) (t : Nat) (data : Nat → Block)
    (hN : 3 ≤ s.N) (hall : ∀ i, s.missing i = false) :
    writeBlocksSt s (t * (s.N - 1)) (s.N - 1) data
      = ((fullStripeWrite s t data).1, .ok ()) := by
  have hk : s.N - 1 ≠ 0 := by omega
  have hst : stripeOf s.N (t * (s.N - 1)) = t := stripeOf_mul t (by omega)
  have hok := fullStripeWrite_ok s t data (hall _)
  have hc : 2 ≤ s.N ∧ (t * (s.N - 1)) % (s.N - 1) = 0 ∧ s.N - 1 ≤ s.N - 1 :=
    ⟨by omega, mul_mod_stripe t, Nat.le_refl _⟩
  have hok2 : fullStripeWrite s (stripeOf s.N (t * (s.N - 1))) data
      = ((fullStripeWrite s t data).1, .ok ()) := by
    rw [hst, hok]
  rw [writeBlocksSt_full_ok hk hc hok2, Nat.sub_self, writeBlocksSt_zero]

/-- C2: after a full-stripe-aligned write of `(N−1)·B` bytes at stripe `t`
(offset `t·(N−1)·B`) with all slots present, the write succeeds and a read
of the same offset and length returns exactly the written bytes — both
with all slots still present and after marking any one slot (including the
stripe's parity slot) missing. -/
theorem claim_C2_roundtrip (s : RState) (t : Nat) (data : Nat → Block)
    (hN : 3 ≤ s.N) (hall : ∀ i, s.missing i = false) :
    (writeBlocksSt s (t * (s.N - 1)) (s.N - 1) data).2 = .ok () ∧
    readBlocksSt (writeBlocksSt s (t * (s.N - 1)) (s.N - 1) data).1
        (t * (s.N - 1)) (s.N - 1)
      = ((writeBlocksSt s (t * (s.N - 1)) (s.N - 1) data).1,
         .ok ((List.range (s.N - 1)).map data)) ∧
    (∀ m, m < s.N →
      readBlocksSt
          (markMissing (writeBlocksSt s (t * (s.N - 1)) (s.N - 1) data).1 m)
          (t * (s.N - 1)) (s.N - 1)
        = (markMissing (writeBlocksSt s (t * (s.N - 1)) (s.N - 1) data).1 m,
           .ok ((List.range (s.N - 1)).map data))) := by
  have hw := writeFullStripe_result s t data hN hall
  set S2 := (fullStripeWrite s t data).1 with hS2def
  have hS2N : S2.N = s.N := fullStripeWrite_fst_N s t data
  have hS2m : S2.missing = s.missing := fullStripeWrite_fst_missing s t data
  have hallLt : ∀ i, i < s.N → s.missing i = false := fun i _ => hall i
  have hcons : ∀ j, stripeXor S2 t j = 0 :=
    fullStripeWrite_consistent s t data (by omega) hallLt
  -- geometry of the read-back blocks
  have hgeom : ∀ j, j < s.N - 1 →
      stripeOf s.N (t * (s.N - 1) + j) = t ∧
      dataOf s.N (t * (s.N - 1) + j) = dataSlotOf (t % s.N) j := by
    intro j hj
    have h1 : stripeOf s.N (t * (s.N - 1) + j) = t :=
      stripeOf_mul_add t j (by omega) hj
    refine ⟨h1, ?_⟩
    unfold dataOf parityOf
    rw [h1, posOf_mul_add t j hj]
  -- contents of the written stripe
  have hdisks : ∀ j, j < s.N - 1 →
      S2.disks (dataSlotOf (t % s.N) j) t = data j := by
    intro j hj
    have := fullStripeWrite_disks_data s t data (hall _) hj
    rwa [if_neg (by rw [hall]; simp)] at this
  rw [hw]
  refine ⟨rfl, ?_, ?_⟩
  · -- non-degraded read-back
    have hmap := readBlocksSt_mapOk
      (fun L => S2.disks (dataOf S2.N L) (stripeOf S2.N L)) (s.N - 1) S2
      (t * (s.N - 1))
      (fun j hj => readOneBlockSt_present S2 (t * (s.N - 1) + j)
        (by rw [hS2m, hS2N, hall]))
    rw [hmap]
    have hvals : (List.range (s.N - 1)).map
        (fun j => S2.disks (dataOf S2.N (t * (s.N - 1) + j))
          (stripeOf S2.N (t * (s.N - 1) + j)))
        = (List.range (s.N - 1)).map data := by
      apply List.map_congr_left
      intro j hj
      have hj2 := List.mem_range.mp hj
      rw [hS2N, (hgeom j hj2).1, (hgeom j hj2).2]
      exact hdisks j hj2
    rw [hvals]
  · -- degraded read-back after marking any one slot missing
    intro m _
    set s3 := markMissing S2 m with hs3def
    have hs3N : s3.N = s.N := hS2N
    have hs3m : ∀ i, s3.missing i = decide (i = m) := by
      intro i
      show (if i = m then true else S2.missing i) = decide (i = m)
      by_cases h : i = m
      · rw [if_pos h]
        simp [h]
      · rw [if_neg h, hS2m, hall]
        simp [h]
    have hcons3 : ∀ j, stripeXor s3 t j = 0 := hcons
    have hmap := readBlocksSt_mapOk (readBlockSpecC3 s3 m) (s.N - 1) s3
      (t * (s.N - 1))
      (fun j hj => readOneBlockSt_oneMissing s3 m (t * (s.N - 1) + j) hs3m)
    rw [hmap]
    have hvals : (List.range (s.N - 1)).map
        (fun j => readBlockSpecC3 s3 m (t * (s.N - 1) + j))
        = (List.range (s.N - 1)).map data := by
      apply List.map_congr_left
      intro j hj
      have hj2 := List.mem_range.mp hj
      have hstr : stripeOf s3.N (t * (s.N - 1) + j) = t := by
        rw [hs3N]
        exact (hgeom j hj2).1
      have hcons4 : parityConsistent s3 (stripeOf s3.N (t * (s.N - 1) + j)) := by
        rw [hstr]
        exact hcons3
      rw [readBlockSpecC3_consistent s3 m _ (by rw [hs3N]; exact hN) hcons4]
      show s3.disks (dataOf s3.N (t * (s.N - 1) + j))
          (stripeOf s3.N (t * (s.N - 1) + j)) = data j
      rw [hstr, hs3N, (hgeom j hj2).2]
      show S2.disks (dataSlotOf (t % s.N) j) t = data j
      exact hdisks j hj2
    rw [hvals]

/-- Witness for C2 at `wState`, stripe `t = 0`. -/
theorem claim_C2_witness :
    (3 ≤ wState.N ∧ (∀ i, wState.missing i = false)) ∧
    ((writeBlocksSt wState (0 * (wState.N - 1)) (wState.N - 1)
        (fun d _ => d + 1)).2 = .ok () ∧
     readBlocksSt (writeBlocksSt wState (0 * (wState.N - 1)) (wState.N - 1)
          (fun d _ => d + 1)).1 (0 * (wState.N - 1)) (wState.N - 1)
       = ((writeBlocksSt wState (0 * (wState.N - 1)) (wState.N - 1)
            (fun d _ => d + 1)).1,
          .ok ((List.range (wState.N - 1)).map (fun d _ => d + 1))) ∧
     (∀ m, m < wState.N →
       readBlocksSt
           (markMissing (writeBlocksSt wState (0 * (wState.N - 1)) (wState.N - 1)
             (fun d _ => d + 1)).1 m)
           (0 * (wState.N - 1)) (wState.N - 1)
         = (markMissing (writeBlocksSt wState (0 * (wState.N - 1)) (wState.N - 1)
             (fun d _ => d + 1)).1 m,
            .ok ((List.range (wState.N - 1)).map (fun d _ => d + 1))))) :=
  ⟨⟨by decide, fun _ => rfl⟩,
   claim_C2_roundtrip wState 0 (fun d _ => d + 1) (by decide) (fun _ => rfl)⟩

/-- A sequence of write requests `(lb, k, data)` served in order (the BUSE
shim delivers them one at a time): final engine state. -/
def runWrites (s : RState) : List (Nat × Nat × (Nat → Block)) → RState
  | [] => s
  | r :: rest => runWrites (writeBlocksSt s r.1 r.2.1 r.2.2).1 rest

/-- Every request of the sequence returns success. -/
def runWritesOk (s : RState) : List (Nat × Nat × (Nat → Block)) → Prop
  | [] => True
  | r :: rest => (writeBlocksSt s r.1 r.2.1 r.2.2).2 = .ok () ∧
      runWritesOk (writeBlocksSt s r.1 r.2.1 r.2.2).1 rest

/-- C6: parity consistency is an invariant of the write operation.  With
all `N` slots present and the XOR over all slots of stripe `T` zero at
every byte position, any sequence of write requests (each request mixing
full-stripe and RMW blocks as the engine dispatches) succeeds and leaves
the XOR over all slots of stripe `T` zero at every byte position. -/
theorem claim_C6_parity_invariant (s : RState) (T : Nat)
    (reqs : List (Nat × Nat × (Nat → Block))) (hN : 3 ≤ s.N)
    (hall : ∀ i, i < s.N → s.missing i = false)
    (hcons : parityConsistent s T) :
    runWritesOk s reqs ∧ parityConsistent (runWrites s reqs) T := by
  induction reqs generalizing s with
  | nil => exact ⟨trivial, hcons⟩
  | cons r rest ih =>
      have hinv := writeBlocksSt_inv T r.2.1 s r.1 r.2.2 hN hall
      set s1 := (writeBlocksSt s r.1 r.2.1 r.2.2).1 with hs1
      have hih := ih s1 (by rw [hinv.1]; exact hN)
        (by
          intro i hi
          rw [hinv.2.1]
          exact hall i (by rwa [hinv.1] at hi))
        (hinv.2.2.2 hcons)
      exact ⟨⟨hinv.2.2.1, hih.1⟩, hih.2⟩

/-- Every stripe of the all-zero `wState` is parity-consistent. -/
theorem wState_consistent (T : Nat) : parityConsistent wState T := by
  intro j
  have h : stripeXor wState T = zeroBlock := xorUpToM_zero_fun wState.N
  rw [h]
  rfl

/-- Witness for C6 at `wState` with one full-stripe and one RMW request. -/
theorem claim_C6_witness :
    (3 ≤ wState.N ∧ (∀ i, i < wState.N → wState.missing i = false) ∧
      parityConsistent wState 0) ∧
    (runWritesOk wState [(0, 2, fun d _ => d + 1), (1, 1, fun _ _ => 9)] ∧
     parityConsistent
       (runWrites wState [(0, 2, fun d _ => d + 1), (1, 1, fun _ _ => 9)]) 0) :=
  ⟨⟨by decide, fun _ _ => rfl, wState_consistent 0⟩,
   claim_C6_parity_invariant wState 0 [(0, 2, fun d _ => d + 1), (1, 1, fun _ _ => 9)]
     (by decide) (fun _ _ => rfl) (wState_consistent 0)⟩

/-- C7: for a parity-consistent RAID set `s` with all `N` slots present and
rebuild target `t < N`: starting from any state `u` that agrees with `s` on
every slot other than `t` (e.g. with slot `t` zeroed), the startup rebuild
over stripes `0 .. K−1` succeeds and rewrites slot `t` at each such stripe
to exactly its content in `s` — for every choice of `t` — touching no other
slot and no stripe beyond `K`. -/
theorem claim_C7_rebuild (s u : RState) (t K : Nat) (hN : 3 ≤ s.N)
    (ht : t < s.N)
    (hall : ∀ i, i < s.N → s.missing i = false)
    (hcons : ∀ st, st < K → parityConsistent s st)
    (hu1 : u.N = s.N) (hu2 : u.missing = s.missing)
    (hu3 : ∀ i, i ≠ t → ∀ st2, u.disks i st2 = s.disks i st2) :
    (doRebuild u t K).2 = .ok () ∧
    (∀ st, st < K → (doRebuild u t K).1.disks t st = s.disks t st) ∧
    (∀ st, K ≤ st → (doRebuild u t K).1.disks t st = u.disks t st) ∧
    (∀ i, i ≠ t → ∀ st2, (doRebuild u t K).1.disks i st2 = s.disks i st2) := by
  simp only [doRebuild]
  have hrun := rebuildStripes_run s t (fun i hi _ => hall i hi) (List.range K)
    u hu1 hu2 hu3
  refine ⟨hrun.1, ?_, ?_, hrun.2.2.2.1⟩
  · intro st hst
    have := hrun.2.2.2.2 st
    rw [if_pos (List.mem_range.mpr hst)] at this
    rw [this]
    exact rebuildValue_eq_orig s t st (by omega) ht
      (fun _ => hall _ (Nat.mod_lt _ (by omega))) (hcons st hst)
  · intro st hst
    have := hrun.2.2.2.2 st
    rwa [if_neg (by rw [List.mem_range]; omega)] at this

/-- Rebuild-witness input: `wState` with slot 1 corrupted to the constant
byte 5. -/
def c7Corrupt : RState :=
  { wState with disks := fun i _ _ => if i = 1 then 5 else 0 }

/-- Witness for C7: rebuild slot 1 of a zeroed (consistent) 3-device set
from a state whose slot 1 was corrupted to 5. -/
theorem claim_C7_witness :
    (3 ≤ wState.N ∧ 1 < wState.N ∧ (∀ i, i < wState.N → wState.missing i = false) ∧
      (∀ st, st < 2 → parityConsistent wState st) ∧
      c7Corrupt.N = wState.N ∧ c7Corrupt.missing = wState.missing ∧
      (∀ i, i ≠ 1 → ∀ st2, c7Corrupt.disks i st2 = wState.disks i st2)) ∧
    ((doRebuild c7Corrupt 1 2).2 = .ok () ∧
     (∀ st, st < 2 → (doRebuild c7Corrupt 1 2).1.disks 1 st = wState.disks 1 st) ∧
     (∀ st, 2 ≤ st →
       (doRebuild c7Corrupt 1 2).1.disks 1 st = c7Corrupt.disks 1 st) ∧
     (∀ i, i ≠ 1 → ∀ st2,
       (doRebuild c7Corrupt 1 2).1.disks i st2 = wState.disks i st2)) :=
  ⟨⟨by decide, by decide, fun _ _ => rfl, fun st _ => wState_consistent st, rfl, rfl,
    fun i hi st2 => by
      funext x
      show (if i = 1 then (5 : Nat) else 0) = 0
      rw [if_neg hi]⟩,
   claim_C7_rebuild wState c7Corrupt 1 2 (by decide) (by decide) (fun _ _ => rfl)
     (fun st _ => wState_consistent st) rfl rfl
     (fun i hi st2 => by
       funext x
       show (if i = 1 then (5 : Nat) else 0) = 0
       rw [if_neg hi])⟩
